import Mathlib

set_option maxHeartbeats 2000000
set_option maxRecDepth 4000

/-!
Verification development for the gigtag crate (src/lib.rs plus the
facet/label/props modules).  The tag data model, the codec
(Tag.encode / Tag.decode_str), the free-text scanner (DecodedTags), and
the ordering/deduplication operations are shallowly embedded below;
strings are modelled as lists of Unicode scalar values (`List Char`),
and byte-level operations (UTF-8 length, slicing, percent-encoding)
go through an explicit UTF-8 encoding into `List Nat`.

External crates used by the source are modelled by their documented
behaviour where the source calls into them:
* `percent_encoding::percent_encode` escapes every byte of the set plus
  every non-ASCII byte; `percent_decode` turns `%XX` (two hex digits)
  back into a byte and keeps everything else verbatim.
* `url::Url` parsing against the dummy base `dummy:///` is modelled by
  a purpose-built relative-reference splitter following the WHATWG URL
  standard for a non-special scheme (tab/newline removal, C0/space
  trimming, scheme detection, first `?` / `#` splitting, dot-segment
  removal, component percent-encoding).
* `regex::bytes::Regex` for the two date-suffix patterns is modelled
  directly; the `\d` class is modelled as the ASCII digits `0`-`9`
  that the `yyyymmdd` format targets (the crate default would also
  accept other Unicode decimal digits), while `\s` is modelled as the
  full `White_Space` set used by `char::is_whitespace`.
-/

namespace Gigtag

/-- Strings are modelled as lists of Unicode scalar values, matching the
content of a Rust `str`/`CompactString`. -/
abbrev Str := List Char

/-- Model of Rust `char::is_whitespace`: the Unicode `White_Space`
property (the list is fixed and fully enumerated here). -/
def rust_is_whitespace (c : Char) : Bool :=
  let n := c.toNat
  n == 0x09 || n == 0x0A || n == 0x0B || n == 0x0C || n == 0x0D ||
  n == 0x20 || n == 0x85 || n == 0xA0 || n == 0x1680 ||
  (decide (0x2000 ≤ n) && decide (n ≤ 0x200A)) ||
  n == 0x2028 || n == 0x2029 || n == 0x202F || n == 0x205F || n == 0x3000

/-- Model of Rust `str::trim_start`. -/
def trim_start (s : Str) : Str := s.dropWhile rust_is_whitespace

/-- Model of Rust `str::trim_end`. -/
def trim_end (s : Str) : Str := (s.reverse.dropWhile rust_is_whitespace).reverse

/-- Model of Rust `str::trim`. -/
def rust_trim (s : Str) : Str := trim_start (trim_end s)

/-- Model of `is_valid_label` (lib.rs line 108): `label.trim() == label`. -/
def is_valid_label (label : Str) : Bool := rust_trim label == label

/-- Model of `is_valid_facet` (lib.rs line 114):
`facet.trim() == facet && facet.as_bytes().first() != Some(&b'/')`.
The first byte of a UTF-8 string is `/` exactly when its first scalar
value is `/` (multi-byte lead bytes are at least `0xC2`). -/
def is_valid_facet (facet : Str) : Bool :=
  rust_trim facet == facet && facet.head? != some '/'

/-- Model of the key/value property struct `Prop` of lib.rs (the name
`Prop` itself is taken by the Lean sort). -/
structure Prop' where
  key : Str
  val : Str
deriving DecidableEq, Repr

/-- Model of `Prop::is_valid_key` (lib.rs line 67): `key.trim() == key`. -/
def Prop'.is_valid_key (key : Str) : Bool := rust_trim key == key

/-- Model of `Prop::is_valid` (lib.rs line 101): `has_key`, i.e. a
non-empty key (the debug assertion is a no-op in release builds). -/
def Prop'.is_valid (p : Prop') : Bool := !p.key.isEmpty

/-- Model of the `Tag` struct of lib.rs. -/
structure Tag where
  label : Str
  facet : Str
  props : List Prop'
deriving DecidableEq, Repr

/-- Model of an ASCII decimal digit, the `\d` class as used by the two
date-suffix regexes (see the module comment). -/
def is_ascii_digit (c : Char) : Bool :=
  decide (0x30 ≤ c.toNat) && decide (c.toNat ≤ 0x39)

/-- Model of `facet_has_date_like_suffix` (lib.rs line 195): the byte
regex `(^|[^\s])~\d{8}$`, i.e. the facet ends with `~` followed by
exactly eight digits, and the character before the `~` (if any) is not
whitespace. -/
def facet_has_date_like_suffix (facet : Str) : Bool :=
  let r := facet.reverse
  r[8]? == some '~' && (r.take 8).all is_ascii_digit &&
    (match r[9]? with
     | none => true
     | some c => !rust_is_whitespace c)

/-- Model of the byte regex `[\s]+~\d{8}$` (lib.rs line 369): a
date-like suffix whose `~` is preceded by a whitespace character. -/
def facet_has_invalid_date_like_suffix (facet : Str) : Bool :=
  let r := facet.reverse
  r[8]? == some '~' && (r.take 8).all is_ascii_digit &&
    (match r[9]? with
     | none => false
     | some c => rust_is_whitespace c)

/-- Model of `Tag::has_label` (release semantics: the debug assertion on
label validity is a no-op). -/
def Tag.has_label (t : Tag) : Bool := !t.label.isEmpty

/-- Model of `Tag::has_facet`. -/
def Tag.has_facet (t : Tag) : Bool := !t.facet.isEmpty

/-- Model of `Tag::has_props`. -/
def Tag.has_props (t : Tag) : Bool := !t.props.isEmpty

/-- Model of `Tag::is_valid` (lib.rs line 187). -/
def Tag.is_valid (t : Tag) : Bool :=
  t.has_label || (t.has_facet && (t.has_props || facet_has_date_like_suffix t.facet))

/-! UTF-8 encoding of scalar values, needed because the source works on
`str::as_bytes()` in several places. -/

/-- Number of bytes of the UTF-8 encoding of a scalar value. -/
def utf8_len_char (c : Char) : Nat :=
  if c.toNat < 0x80 then 1
  else if c.toNat < 0x800 then 2
  else if c.toNat < 0x10000 then 3
  else 4

/-- UTF-8 encoding of one scalar value. -/
def utf8_bytes_char (c : Char) : List Nat :=
  let n := c.toNat
  if n < 0x80 then [n]
  else if n < 0x800 then [0xC0 + n / 0x40, 0x80 + n % 0x40]
  else if n < 0x10000 then [0xE0 + n / 0x1000, 0x80 + n / 0x40 % 0x40, 0x80 + n % 0x40]
  else [0xF0 + n / 0x40000, 0x80 + n / 0x1000 % 0x40, 0x80 + n / 0x40 % 0x40, 0x80 + n % 0x40]

/-- Model of `str::as_bytes`. -/
def str_bytes (s : Str) : List Nat := s.flatMap utf8_bytes_char

/-- Model of `str::len` (UTF-8 byte length). -/
def byte_len (s : Str) : Nat := (str_bytes s).length

/-- Result of a Rust computation that can panic (used where the source
can index a string outside a character boundary). -/
inductive RustResult (α : Type) where
  | ok : α → RustResult α
  | panicked : RustResult α
deriving DecidableEq, Repr

/-- Model of slicing a `str` at byte index `k` into `(&s[..k], &s[k..])`:
panics when `k` is not a character boundary. -/
def split_at_byte_index : Str → Nat → RustResult (Str × Str)
  | s, 0 => .ok ([], s)
  | [], _ + 1 => .panicked
  | c :: rest, k + 1 =>
    if utf8_len_char c ≤ k + 1 then
      match split_at_byte_index rest (k + 1 - utf8_len_char c) with
      | .ok (a, b) => .ok (c :: a, b)
      | .panicked => .panicked
    else .panicked

/-- Model of the constant `DATE_LIKE_SUFFIX_LEN` (lib.rs line 354). -/
def DATE_LIKE_SUFFIX_LEN : Nat := 1 + 8

/-- Model of `try_split_facet_into_prefix_and_date_like_suffix`
(lib.rs lines 201-212, identical to
`facet::try_split_into_prefix_and_date_like_suffix` in facet/mod.rs):
returns `none` when the facet is shorter than 9 bytes, slices off the
last 9 bytes (a slice at a non-boundary byte index panics), and returns
`none` when the sliced suffix is not pure ASCII. -/
def try_split_facet_into_prefix_and_date_like_suffix (facet : Str) :
    RustResult (Option (Str × Str)) :=
  if byte_len facet < DATE_LIKE_SUFFIX_LEN then .ok none
  else
    match split_at_byte_index facet (byte_len facet - DATE_LIKE_SUFFIX_LEN) with
    | .panicked => .panicked
    | .ok (pre, suf) =>
      if suf.all (fun c => decide (c.toNat < 0x80)) then .ok (some (pre, suf))
      else .ok none

/-! Percent-encoding (model of the `percent_encoding` crate). -/

/-- Model of `percent_encoding::CONTROLS`: the C0 controls and DEL. -/
def CONTROLS (b : Nat) : Bool := b ≤ 0x1F || b == 0x7F

/-- Model of the fragment percent-encode set (lib.rs line 255):
`CONTROLS` plus space, `"`, `<`, `>`, `` ` ``. -/
def FRAGMENT (b : Nat) : Bool :=
  CONTROLS b || b == 0x20 || b == 0x22 || b == 0x3C || b == 0x3E || b == 0x60

/-- Model of the query percent-encode set (lib.rs line 259):
`CONTROLS` plus space, `"`, `<`, `>`, `#`. -/
def QUERY (b : Nat) : Bool :=
  CONTROLS b || b == 0x20 || b == 0x22 || b == 0x3C || b == 0x3E || b == 0x23

/-- Model of the path percent-encode set (lib.rs line 262):
`QUERY` plus `` ` ``, `?`, `{`, `}`. -/
def PATH (b : Nat) : Bool :=
  QUERY b || b == 0x60 || b == 0x3F || b == 0x7B || b == 0x7D

/-- Uppercase hexadecimal digit, as emitted by the percent encoder. -/
def hex_digit_upper (n : Nat) : Char :=
  if n < 10 then Char.ofNat (0x30 + n) else Char.ofNat (0x37 + n)

/-- Model of `percent_encoding::percent_encode`: a byte is escaped as
`%XX` when it is in the set or is not ASCII, otherwise kept verbatim. -/
def percent_encode (inSet : Nat → Bool) (bytes : List Nat) : Str :=
  bytes.flatMap fun b =>
    if inSet b || decide (0x80 ≤ b) then
      ['%', hex_digit_upper (b / 16), hex_digit_upper (b % 16)]
    else [Char.ofNat b]

/-- Model of one `key=val` item of the encoded properties
(lib.rs lines 285-290). -/
def encode_prop (p : Prop') : Str :=
  percent_encode QUERY (str_bytes p.key) ++ '=' :: percent_encode QUERY (str_bytes p.val)

/-- Model of `Tag::encode_into` / `Tag::encode` (lib.rs lines 273-299):
the percent-encoded facet, then `?` and the `&`-joined encoded
properties when at least one property is present, then `#` and the
percent-encoded label when the label is non-empty. -/
def Tag.encode (t : Tag) : Str :=
  let encoded_label := percent_encode FRAGMENT (str_bytes t.label)
  let encoded_facet := percent_encode PATH (str_bytes t.facet)
  if t.props.isEmpty then
    if !t.label.isEmpty then encoded_facet ++ '#' :: encoded_label
    else encoded_facet
  else
    let encoded_props := ['&'].intercalate (t.props.map encode_prop)
    if !t.label.isEmpty then
      encoded_facet ++ '?' :: encoded_props ++ '#' :: encoded_label
    else encoded_facet ++ '?' :: encoded_props

/-! Percent-decoding (model of `percent_encoding::percent_decode` followed
by `decode_utf8`). -/

/-- Value of a hexadecimal digit, upper or lower case. -/
def hex_val (c : Char) : Option Nat :=
  let n := c.toNat
  if 0x30 ≤ n ∧ n ≤ 0x39 then some (n - 0x30)
  else if 0x41 ≤ n ∧ n ≤ 0x46 then some (n - 0x37)
  else if 0x61 ≤ n ∧ n ≤ 0x66 then some (n - 0x57)
  else none

/-- Fuel-indexed worker for `percent_decode`; the fuel (bounded below by
the input length) only makes the recursion structural. -/
def percent_decode_aux : Nat → Str → List Nat
  | 0, s => s.map (fun c => c.toNat)
  | _ + 1, [] => []
  | fuel + 1, c :: rest =>
    if c = '%' then
      match rest with
      | h :: l :: rest2 =>
        match hex_val h, hex_val l with
        | some hv, some lv => (hv * 16 + lv) :: percent_decode_aux fuel rest2
        | _, _ => c.toNat :: percent_decode_aux fuel rest
      | _ => c.toNat :: percent_decode_aux fuel rest
    else c.toNat :: percent_decode_aux fuel rest

/-- Model of `percent_encoding::percent_decode` on an ASCII component
string: `%` followed by two hex digits becomes the denoted byte, any
other character (including a stray `%`) is kept verbatim. -/
def percent_decode (s : Str) : List Nat := percent_decode_aux s.length s

/-- Model of `Cow::<str>::decode_utf8` / `str::from_utf8`: strict UTF-8
decoding, rejecting truncated sequences, bad continuation bytes,
overlong forms, surrogates and out-of-range scalar values. -/
def utf8_decode : List Nat → Option Str
  | [] => some []
  | b :: rest =>
    if b < 0x80 then (utf8_decode rest).map (fun s => Char.ofNat b :: s)
    else if b < 0xC2 then none
    else if b < 0xE0 then
      match rest with
      | b2 :: rest2 =>
        if 0x80 ≤ b2 ∧ b2 < 0xC0 then
          (utf8_decode rest2).map (fun s => Char.ofNat ((b - 0xC0) * 0x40 + (b2 - 0x80)) :: s)
        else none
      | [] => none
    else if b < 0xF0 then
      match rest with
      | b2 :: b3 :: rest3 =>
        let n := (b - 0xE0) * 0x1000 + (b2 - 0x80) * 0x40 + (b3 - 0x80)
        if 0x80 ≤ b2 ∧ b2 < 0xC0 ∧ 0x80 ≤ b3 ∧ b3 < 0xC0 ∧ 0x800 ≤ n ∧
            ¬(0xD800 ≤ n ∧ n < 0xE000) then
          (utf8_decode rest3).map (fun s => Char.ofNat n :: s)
        else none
      | _ => none
    else if b < 0xF5 then
      match rest with
      | b2 :: b3 :: b4 :: rest4 =>
        let n := (b - 0xF0) * 0x40000 + (b2 - 0x80) * 0x1000 + (b3 - 0x80) * 0x40 + (b4 - 0x80)
        if 0x80 ≤ b2 ∧ b2 < 0xC0 ∧ 0x80 ≤ b3 ∧ b3 < 0xC0 ∧ 0x80 ≤ b4 ∧ b4 < 0xC0 ∧
            0x10000 ≤ n ∧ n < 0x110000 then
          (utf8_decode rest4).map (fun s => Char.ofNat n :: s)
        else none
      | _ => none
    else none

/-! Model of `url::Url` parsing against the dummy base `dummy:///`
(lib.rs lines 340-349 and 393-394).  The parser is used purely as a
splitter: the source only reads `path()`, `query()` and `fragment()`
from the result.  The model follows the WHATWG URL standard for a
non-special scheme: input cleanup, scheme detection, authority / path /
opaque-path states, first `?` and `#` splitting, dot-segment removal
and component percent-encoding.  The scheme and authority branches are
modelled coarsely (no userinfo splitting, opaque host accepted
verbatim); every theorem below stays inside the schemeless,
authority-free branch, which is modelled precisely. -/

/-- Parts of a parsed URL that the source reads back. -/
structure UrlParts where
  path : Str
  query : Option Str
  fragment : Option Str
deriving DecidableEq, Repr

/-- Split a string at the first occurrence of a separator; the second
component is `none` when the separator does not occur. -/
def split_first (sep : Char) : Str → Str × Option Str
  | [] => ([], none)
  | c :: rest =>
    if c = sep then ([], some rest)
    else
      let (a, b) := split_first sep rest
      (c :: a, b)

/-- WHATWG input cleanup, first step: remove leading and trailing C0
controls and spaces. -/
def url_strip_c0_space (s : Str) : Str :=
  let p := fun c : Char => decide (c.toNat ≤ 0x20)
  ((s.dropWhile p).reverse.dropWhile p).reverse

/-- WHATWG input cleanup, second step: remove all ASCII tab, line feed
and carriage return characters. -/
def url_remove_tab_newline (s : Str) : Str :=
  s.filter fun c => !(c.toNat == 0x09 || c.toNat == 0x0A || c.toNat == 0x0D)

/-- ASCII alphabetic character. -/
def is_ascii_alpha (c : Char) : Bool :=
  (decide (0x41 ≤ c.toNat) && decide (c.toNat ≤ 0x5A)) ||
  (decide (0x61 ≤ c.toNat) && decide (c.toNat ≤ 0x7A))

/-- Character allowed inside a URL scheme after the first one. -/
def is_scheme_char (c : Char) : Bool :=
  is_ascii_alpha c || is_ascii_digit c || c == '+' || c == '-' || c == '.'

/-- Helper of `scheme_split`: scan for the terminating `:`. -/
def scheme_split_aux (acc : Str) : Str → Option (Str × Str)
  | [] => none
  | c :: rest =>
    if c = ':' then some (acc.reverse, rest)
    else if is_scheme_char c then scheme_split_aux (c :: acc) rest
    else none

/-- WHATWG scheme detection: an ASCII alpha followed by scheme
characters up to a `:`.  When no such prefix exists the input is parsed
relative to the base. -/
def scheme_split (s : Str) : Option (Str × Str) :=
  match s with
  | [] => none
  | c :: rest => if is_ascii_alpha c then scheme_split_aux [c] rest else none

/-- URL component percent-encoding as performed by the parser while
copying input into the record: bytes of the set and non-ASCII bytes are
escaped.  This coincides with `percent_encode` applied to the UTF-8
bytes of the component. -/
def url_component_encode (inSet : Nat → Bool) (s : Str) : Str :=
  percent_encode inSet (str_bytes s)

/-- ASCII lowercasing, used by the WHATWG dot-segment comparison. -/
def char_ascii_lower (c : Char) : Char :=
  if 0x41 ≤ c.toNat ∧ c.toNat ≤ 0x5A then Char.ofNat (c.toNat + 0x20) else c

/-- WHATWG single-dot path segment: `.` or `%2e` (case-insensitive). -/
def is_single_dot_segment (seg : Str) : Bool :=
  seg == ".".data || seg.map char_ascii_lower == "%2e".data

/-- WHATWG double-dot path segment: `..` or one of the `%2e` spellings
(case-insensitive). -/
def is_double_dot_segment (seg : Str) : Bool :=
  let l := seg.map char_ascii_lower
  seg == "..".data || l == ".%2e".data || l == "%2e.".data || l == "%2e%2e".data

/-- WHATWG path state over the `/`-separated segments: double dots pop
the previous segment, dots vanish, and a trailing dot segment leaves a
trailing slash (an empty final segment). -/
def process_path_segments (acc : List Str) : List Str → List Str
  | [] => acc
  | seg :: rest =>
    if is_double_dot_segment seg then
      if rest.isEmpty then acc.dropLast ++ [[]]
      else process_path_segments acc.dropLast rest
    else if is_single_dot_segment seg then
      if rest.isEmpty then acc ++ [[]]
      else process_path_segments acc rest
    else process_path_segments (acc ++ [seg]) rest

/-- Resolution of a relative path reference against the base path `/`:
merge, percent-encode each segment with the path set, remove dot
segments and serialize with a leading slash.  An empty relative path
keeps the base path `/`. -/
def url_resolve_path (rawPath : Str) : Str :=
  if rawPath.isEmpty then "/".data
  else
    let resolved := if rawPath.head? == some '/' then rawPath else '/' :: rawPath
    let segs := (resolved.drop 1).splitOn '/'
    let encSegs := segs.map (url_component_encode PATH)
    '/' :: ['/'].intercalate (process_path_segments [] encSegs)

/-- Parse of a schemeless, authority-free relative reference: split at
the first `#`, then at the first `?`, resolve the path against `/` and
percent-encode the query and fragment with their sets. -/
def url_parse_relative (s : Str) : UrlParts :=
  let (beforeFrag, frag) := split_first '#' s
  let (rawPath, query) := split_first '?' beforeFrag
  { path := url_resolve_path rawPath
    query := query.map (url_component_encode QUERY)
    fragment := frag.map (url_component_encode FRAGMENT) }

/-- Coarse model of an authority section (reachable only through inputs
with a scheme or a C0-stripped leading `//`; exercised by no theorem):
the authority runs to the first `/`, `?` or `#`; a non-numeric port is
a parse failure; the path after the authority is absolute or empty. -/
def url_parse_authority (rest : Str) : Option UrlParts :=
  let (beforeFrag, frag) := split_first '#' rest
  let (beforeQuery, query) := split_first '?' beforeFrag
  let auth := beforeQuery.takeWhile (fun c => c != '/')
  let pathPart := beforeQuery.dropWhile (fun c => c != '/')
  let hostPort := (auth.reverse.takeWhile (fun c => c != '@')).reverse
  let portOk :=
    match split_first ':' hostPort with
    | (_, none) => true
    | (_, some p) => p.all is_ascii_digit
  if !portOk then none
  else
    some
      { path := if pathPart.isEmpty then [] else url_resolve_path pathPart
        query := query.map (url_component_encode QUERY)
        fragment := frag.map (url_component_encode FRAGMENT) }

/-- Coarse model of parsing after a detected scheme (exercised by no
theorem): `//` opens an authority, `/` an absolute path, anything else
an opaque path encoded with the C0 set. -/
def url_parse_with_scheme (rest : Str) : Option UrlParts :=
  match rest with
  | '/' :: '/' :: rest2 => url_parse_authority rest2
  | '/' :: _ => some (url_parse_relative rest)
  | _ =>
    let (beforeFrag, frag) := split_first '#' rest
    let (opath, query) := split_first '?' beforeFrag
    some
      { path := url_component_encode CONTROLS opath
        query := query.map (url_component_encode QUERY)
        fragment := frag.map (url_component_encode FRAGMENT) }

/-- Dispatch on the cleaned input: a detected scheme goes to the scheme
states, a leading `//` opens an authority, anything else is parsed as a
relative reference. -/
def url_parse_cleaned (s : Str) : Option UrlParts :=
  match scheme_split s with
  | some (_, rest) => url_parse_with_scheme rest
  | none =>
    match s with
    | '/' :: '/' :: rest2 => url_parse_authority rest2
    | _ => some (url_parse_relative s)

/-- Model of `Url::options().base_url(dummy).parse(encoded)` with the
dummy base `dummy:///`: input cleanup followed by the state dispatch. -/
def url_parse (input : Str) : Option UrlParts :=
  url_parse_cleaned (url_remove_tab_newline (url_strip_c0_space input))

/-- Result of `Tag::decode_str`: the two error kinds of `DecodeError`
are kept distinct, and `panicked` models a release-build slicing panic
on an empty path (unreachable from the encoder). -/
inductive DecodeResult where
  | ok : Tag → DecodeResult
  | parseError : DecodeResult
  | invalidTag : DecodeResult
  | panicked : DecodeResult
deriving DecidableEq, Repr

/-- Decoding of one percent-encoded `key` / `val` pair
(lib.rs lines 437-446). -/
def decode_keyval (k v : Str) : Option Prop' :=
  match utf8_decode (percent_decode k) with
  | none => none
  | some key =>
    if !Prop'.is_valid_key key then none
    else
      match utf8_decode (percent_decode v) with
      | none => none
      | some val => some ⟨key, val⟩

/-- Decoding of one `&`-separated query segment (lib.rs lines 421-446):
split on `=`; no `=` yields an empty value, more than one `=` is a
malformed property. -/
def decode_one_prop (seg : Str) : Option Prop' :=
  match seg.splitOn '=' with
  | [k] => decode_keyval k []
  | [k, v] => decode_keyval k v
  | _ => none

/-- Decoding of all query segments in order. -/
def decode_query_props : List Str → Option (List Prop')
  | [] => some []
  | seg :: rest =>
    match decode_one_prop seg with
    | none => none
    | some p => (decode_query_props rest).map (fun ps => p :: ps)

/-- Model of `Tag::decode_str` (lib.rs lines 382-458): reject inputs
with surrounding whitespace, empty inputs and inputs starting with `/`;
parse as a URL reference against the dummy base; percent-decode and
validate the label (fragment), the facet (path without the leading
slash contributed by the base) and the properties (query); reject an
assembled tag that is not valid with the distinct `invalidTag` kind. -/
def Tag.decode_str (encoded : Str) : DecodeResult :=
  if rust_trim encoded != encoded then .parseError
  else if encoded.isEmpty then .parseError
  else if encoded.head? == some '/' then .parseError
  else
    match url_parse encoded with
    | none => .parseError
    | some parts =>
      let fragment := parts.fragment.getD []
      match utf8_decode (percent_decode fragment) with
      | none => .parseError
      | some label =>
        if !is_valid_label label then .parseError
        else if parts.path.isEmpty then .panicked
        else
          match utf8_decode (percent_decode (parts.path.drop 1)) with
          | none => .parseError
          | some facet =>
            if !is_valid_facet facet then .parseError
            else if facet_has_invalid_date_like_suffix facet then .parseError
            else
              let query := parts.query.getD []
              match (if query.isEmpty then some [] else decode_query_props (query.splitOn '&')) with
              | none => .parseError
              | some props =>
                let tag : Tag := ⟨label, facet, props⟩
                if !tag.is_valid then .invalidTag else .ok tag

/-! Model of `DecodedTags` (lib.rs lines 472-578). -/

/-- Model of the `DecodedTags` struct; the field `undecoded` models
`undecoded_prefix`. -/
structure DecodedTags where
  tags : List Tag
  undecoded : Str
deriving DecidableEq, Repr

/-- Model of the token split of one scanner iteration (lib.rs lines
494-502): everything up to and including the last whitespace character
of the remainder, and the final token after it.  The source computes
the byte index of the last whitespace character with
`rmatch_indices(char::is_whitespace)` and slices inclusively; for a
multi-byte whitespace character that inclusive byte slice panics, so
the scanner theorems below restrict whitespace in the input to ASCII,
where this character-level split is exact. -/
def split_last_ws (r : Str) : Str × Str :=
  match r.reverse.findIdx? rust_is_whitespace with
  | none => ([], r)
  | some jr => (r.take (r.length - jr), r.drop (r.length - jr))

/-- Fuel-indexed worker for the scanner loop of
`DecodedTags::decode_str` (lib.rs lines 489-511); the fuel (bounded
below by the number of iterations) only makes the recursion structural.
Each iteration trims trailing whitespace, splits off the last
whitespace-separated token, and either records its decoded tag and
continues on the part before it, or stops. -/
def scan_loop_aux : Nat → Str → List Tag × Str
  | 0, u => ([], u)
  | fuel + 1, u =>
    if u.isEmpty then ([], u)
    else
      let remainder := trim_end u
      if remainder.isEmpty then ([], u)
      else
        let s := split_last_ws remainder
        match Tag.decode_str s.2 with
        | .ok tag =>
          let r := scan_loop_aux fuel s.1
          (tag :: r.1, r.2)
        | _ => ([], u)

/-- Scanner loop of `DecodedTags::decode_str`: returns the decoded tags
in right-to-left discovery order together with the final undecoded
working suffix. -/
def scan_loop (u : Str) : List Tag × Str := scan_loop_aux (u.length + 1) u

/-- Model of `DecodedTags::decode_str` (lib.rs lines 486-521): run the
scanner loop, restore left-to-right order, and discard an undecoded
suffix that is pure whitespace. -/
def DecodedTags.decode_str (encoded : Str) : DecodedTags :=
  let r := scan_loop encoded
  { tags := r.1.reverse
    undecoded := if (rust_trim r.2).isEmpty then [] else r.2 }

/-- Tag-writing loop of `DecodedTags::encode_into` (lib.rs lines
532-540): a single space is written before every tag except when the
flag says the start needs no separator. -/
def encode_tags_loop (sep : Bool) : List Tag → Str
  | [] => []
  | t :: ts => (if sep then [' '] else []) ++ Tag.encode t ++ encode_tags_loop true ts

/-- Model of `DecodedTags::encode_into` (lib.rs lines 528-542): the
undecoded prefix verbatim, then the encoded tags separated by single
spaces, with a separator before the first tag exactly when the prefix
is non-empty and does not end in whitespace. -/
def DecodedTags.encode_into (dt : DecodedTags) : Str :=
  dt.undecoded ++
    encode_tags_loop (!dt.undecoded.isEmpty && trim_end dt.undecoded == dt.undecoded) dt.tags

/-- Worker of `DecodedTags::dedup`.  The source builds a `HashSet` of
the encoded forms of all tags and retains a tag when `take` on its
encoded form succeeds; since every encoded form starts out in the set
and `take` removes it, a tag is retained exactly when no earlier tag
had the same encoded form, which is what this seen-list fold computes. -/
def dedup_loop (seen : List Str) : List Tag → List Tag
  | [] => []
  | t :: ts =>
    let e := Tag.encode t
    if e ∈ seen then dedup_loop seen ts
    else t :: dedup_loop (e :: seen) ts

/-- Model of `DecodedTags::dedup` (lib.rs lines 545-549). -/
def DecodedTags.dedup (dt : DecodedTags) : DecodedTags :=
  { dt with tags := dedup_loop [] dt.tags }

/-- Lexicographic comparison of two strings by scalar value, the model
of `str::cmp`.  Rust compares UTF-8 bytes, and byte-wise lexicographic
order on UTF-8 coincides with scalar-value lexicographic order. -/
def cmp_str : Str → Str → Ordering
  | [], [] => .eq
  | [], _ :: _ => .lt
  | _ :: _, [] => .gt
  | a :: as, b :: bs =>
    if a.toNat < b.toNat then .lt
    else if b.toNat < a.toNat then .gt
    else cmp_str as bs

/-- Date-like suffix extracted by the `unwrap` inside the comparator of
`reorder_date_like` (lib.rs lines 562-566); the fallback `[]` is
unreachable because a facet with a date-like suffix always splits
(see `date_like_suffix_of_spec` below). -/
def date_like_suffix_of (facet : Str) : Str :=
  match try_split_facet_into_prefix_and_date_like_suffix facet with
  | .ok (some (_, suf)) => suf
  | _ => []

/-- Comparator of `DecodedTags::reorder_date_like` (lib.rs lines
559-576): date-like facets sort in descending suffix order among
themselves and after all other tags; all other pairs compare equal. -/
def reorder_cmp (lhs rhs : Tag) : Ordering :=
  if facet_has_date_like_suffix rhs.facet then
    if facet_has_date_like_suffix lhs.facet then
      cmp_str (date_like_suffix_of rhs.facet) (date_like_suffix_of lhs.facet)
    else .lt
  else if facet_has_date_like_suffix lhs.facet then .gt
  else .eq

/-- Model of `DecodedTags::reorder_date_like` (lib.rs lines 558-577).
`slice::sort_by` is a stable sort and the comparator is a total
preorder, so its output is the unique stable sorted permutation, which
insertion sort also computes. -/
def DecodedTags.reorder_date_like (dt : DecodedTags) : DecodedTags :=
  { dt with tags := dt.tags.insertionSort (fun a b => reorder_cmp a b ≠ .gt) }

/-- Characters that can occur in an encoded token: strictly between
space and DEL, hence printable ASCII and in particular not whitespace. -/
def token_char_good (c : Char) : Bool :=
  decide (0x20 < c.toNat) && decide (c.toNat < 0x7F)

/-- Whether a string ends in a whitespace character. -/
def ends_ws (s : Str) : Bool :=
  match s.getLast? with
  | some c => rust_is_whitespace c
  | none => false

/-- Specification of deduplication by encoded form, written from the
amended reading of the source: the first occurrence of every encoded
form is kept, every later tag with an encoded form seen earlier is
dropped. -/
def dedup_by_encoding_spec : List Tag → List Tag
  | [] => []
  | t :: ts =>
    t :: dedup_by_encoding_spec (ts.filter fun t2 => !(Tag.encode t2 == Tag.encode t))
termination_by l => l.length
decreasing_by
  simp only [List.length_cons]
  exact Nat.lt_succ_of_le (List.length_filter_le _ _)

/-! Basic character and percent-encoding lemmas. -/

theorem char_toNat_ofNat (n : Nat) (h : n.isValidChar) : (Char.ofNat n).toNat = n := by
  unfold Char.ofNat
  rw [dif_pos h]
  rfl

theorem isValidChar_of_lt {n : Nat} (h : n < 0x80) : n.isValidChar := Or.inl (by omega)

theorem char_toNat_ofNat_ascii {n : Nat} (h : n < 0x80) : (Char.ofNat n).toNat = n :=
  char_toNat_ofNat n (isValidChar_of_lt h)

theorem percent_encode_append (inSet : Nat → Bool) (a b : List Nat) :
    percent_encode inSet (a ++ b) = percent_encode inSet a ++ percent_encode inSet b := by
  simp [percent_encode]

theorem mem_percent_encode {inSet : Nat → Bool} {bs : List Nat} {c : Char}
    (hbs : ∀ b ∈ bs, b < 256) (h : c ∈ percent_encode inSet bs) :
    c = '%' ∨ (∃ n, n < 16 ∧ c = hex_digit_upper n) ∨
      ∃ b ∈ bs, b < 0x80 ∧ inSet b = false ∧ c = Char.ofNat b := by
  simp only [percent_encode, List.mem_flatMap] at h
  obtain ⟨b, hb, hc⟩ := h
  by_cases hesc : (inSet b || decide (0x80 ≤ b)) = true
  · rw [if_pos hesc] at hc
    have hb256 := hbs b hb
    simp only [List.mem_cons, List.not_mem_nil, or_false] at hc
    rcases hc with rfl | rfl | rfl
    · exact Or.inl rfl
    · exact Or.inr (Or.inl ⟨b / 16, by omega, rfl⟩)
    · exact Or.inr (Or.inl ⟨b % 16, by omega, rfl⟩)
  · rw [if_neg hesc] at hc
    simp only [Bool.or_eq_true, decide_eq_true_eq, not_or, not_le] at hesc
    simp only [List.mem_singleton] at hc
    subst hc
    exact Or.inr (Or.inr ⟨b, hb, hesc.2, by simpa using hesc.1, rfl⟩)

theorem str_bytes_bound (s : Str) : ∀ b ∈ str_bytes s, b < 256 := by
  intro b hb
  simp only [str_bytes, List.mem_flatMap] at hb
  obtain ⟨c, _, hbc⟩ := hb
  have hc : c.toNat < 0x110000 := by
    rcases c.valid with h | h <;> simp only [Char.toNat] <;> omega
  simp only [utf8_bytes_char] at hbc
  split_ifs at hbc <;> simp_all <;> omega

theorem str_bytes_append (a b : Str) : str_bytes (a ++ b) = str_bytes a ++ str_bytes b := by
  simp [str_bytes]

theorem intercalate_nil (sep : Str) : sep.intercalate ([] : List Str) = [] := by
  simp [List.intercalate]

theorem intercalate_singleton (sep x : Str) : sep.intercalate [x] = x := by
  simp [List.intercalate]

theorem intercalate_cons₂ (sep x y : Str) (rest : List Str) :
    sep.intercalate (x :: y :: rest) = x ++ sep ++ sep.intercalate (y :: rest) := by
  simp [List.intercalate, List.intersperse]

theorem mem_intercalate_sep {sep : Char} {L : List Str} {c : Char}
    (h : c ∈ ([sep].intercalate L)) : c = sep ∨ ∃ l ∈ L, c ∈ l := by
  induction L with
  | nil => simp [intercalate_nil] at h
  | cons x xs ih =>
    cases xs with
    | nil =>
      rw [intercalate_singleton] at h
      exact Or.inr ⟨x, List.mem_cons_self _ _, h⟩
    | cons y ys =>
      rw [intercalate_cons₂] at h
      simp only [List.mem_append, List.mem_singleton] at h
      rcases h with (h | rfl) | h
      · exact Or.inr ⟨x, List.mem_cons_self _ _, h⟩
      · exact Or.inl rfl
      · rcases ih h with h' | ⟨l, hl, hcl⟩
        · exact Or.inl h'
        · exact Or.inr ⟨l, List.mem_cons_of_mem _ hl, hcl⟩

theorem token_char_good_not_ws {c : Char} (h : token_char_good c = true) :
    rust_is_whitespace c = false := by
  simp only [token_char_good, Bool.and_eq_true, decide_eq_true_eq] at h
  simp only [rust_is_whitespace, Bool.or_eq_false_iff, beq_eq_false_iff_ne, ne_eq,
    Bool.and_eq_false_iff, decide_eq_false_iff_not, not_le]
  omega

theorem hex_digit_upper_good : ∀ n, n < 16 → token_char_good (hex_digit_upper n) = true := by
  decide

theorem percent_encode_all_good {inSet : Nat → Bool}
    (hset : ∀ b, b < 0x80 → b ≤ 0x20 ∨ b = 0x7F → inSet b = true)
    {bs : List Nat} (hbs : ∀ b ∈ bs, b < 256) :
    ∀ c ∈ percent_encode inSet bs, token_char_good c = true := by
  intro c hc
  rcases mem_percent_encode hbs hc with rfl | ⟨n, hn, rfl⟩ | ⟨b, _, hlt, hnset, rfl⟩
  · decide
  · exact hex_digit_upper_good n hn
  · have hrange : ¬(b ≤ 0x20 ∨ b = 0x7F) := by
      intro hin
      rw [hset b hlt hin] at hnset
      cases hnset
    simp only [token_char_good, Bool.and_eq_true, decide_eq_true_eq,
      char_toNat_ofNat_ascii hlt]
    omega

theorem FRAGMENT_has_ws_bytes : ∀ b, b < 0x80 → b ≤ 0x20 ∨ b = 0x7F → FRAGMENT b = true := by
  decide

theorem QUERY_has_ws_bytes : ∀ b, b < 0x80 → b ≤ 0x20 ∨ b = 0x7F → QUERY b = true := by
  decide

theorem PATH_has_ws_bytes : ∀ b, b < 0x80 → b ≤ 0x20 ∨ b = 0x7F → PATH b = true := by
  decide

/-- Every character of an encoded token is printable ASCII strictly
between space and DEL; in particular the token contains no whitespace
of any kind. -/
theorem encode_all_good (t : Tag) : ∀ c ∈ Tag.encode t, token_char_good c = true := by
  have hlabel := percent_encode_all_good FRAGMENT_has_ws_bytes (str_bytes_bound t.label)
  have hfacet := percent_encode_all_good PATH_has_ws_bytes (str_bytes_bound t.facet)
  have hprops : ∀ c ∈ ['&'].intercalate (t.props.map encode_prop), token_char_good c = true := by
    intro c hc
    rcases mem_intercalate_sep hc with rfl | ⟨l, hl, hcl⟩
    · decide
    · simp only [List.mem_map] at hl
      obtain ⟨p, _, rfl⟩ := hl
      rcases List.mem_append.mp hcl with h | h
      · exact percent_encode_all_good QUERY_has_ws_bytes (str_bytes_bound p.key) c h
      · rcases List.mem_cons.mp h with rfl | h
        · decide
        · exact percent_encode_all_good QUERY_has_ws_bytes (str_bytes_bound p.val) c h
  simp only [Tag.encode]
  split_ifs
  · exact List.forall_mem_append.mpr ⟨hfacet, List.forall_mem_cons.mpr ⟨by decide, hlabel⟩⟩
  · exact hfacet
  · exact List.forall_mem_append.mpr
      ⟨List.forall_mem_append.mpr ⟨hfacet, List.forall_mem_cons.mpr ⟨by decide, hprops⟩⟩,
        List.forall_mem_cons.mpr ⟨by decide, hlabel⟩⟩
  · exact List.forall_mem_append.mpr ⟨hfacet, List.forall_mem_cons.mpr ⟨by decide, hprops⟩⟩

/-! Claim C10. -/

/-- C10: for every valid tag, the encoded token contains no ASCII
whitespace byte (space, tab, newline, carriage return): every percent
encode set used contains the space byte and all ASCII control bytes, so
whitespace in any field is escaped. -/
theorem C10_encode_no_ascii_whitespace (t : Tag) (hvalid : t.is_valid = true) :
    ∀ b ∈ str_bytes (Tag.encode t), b ≠ 0x20 ∧ b ≠ 0x09 ∧ b ≠ 0x0A ∧ b ≠ 0x0D := by
  intro b hb
  simp only [str_bytes, List.mem_flatMap] at hb
  obtain ⟨c, hc, hbc⟩ := hb
  have hg := encode_all_good t c hc
  simp only [token_char_good, Bool.and_eq_true, decide_eq_true_eq] at hg
  simp only [utf8_bytes_char] at hbc
  rw [if_pos (show c.toNat < 0x80 by omega)] at hbc
  simp only [List.mem_singleton] at hbc
  subst hbc
  omega

/-- C10 witness at a concrete valid tag. -/
theorem C10_witness :
    Tag.is_valid ⟨"My Tag".data, [], []⟩ = true ∧
      ∀ b ∈ str_bytes (Tag.encode ⟨"My Tag".data, [], []⟩),
        b ≠ 0x20 ∧ b ≠ 0x09 ∧ b ≠ 0x0A ∧ b ≠ 0x0D :=
  ⟨by decide, C10_encode_no_ascii_whitespace ⟨"My Tag".data, [], []⟩ (by decide)⟩

/-! Claim C3. -/

/-- C3 counterexample: the claim says `%` is escaped as `%25` in facet
and label, but the encoder leaves `%` verbatim: the tag with label
`a%b` encodes to `#a%b`, not `#a%25b`. -/
theorem C3_counterexample :
    Tag.encode ⟨"a%b".data, [], []⟩ = "#a%b".data ∧ "#a%b".data ≠ "#a%25b".data := by
  decide

/-- C3 amended: none of the three percent-encode sets contains `%`, a
`%` byte in any field is rendered verbatim, and the facet (path) set
escapes exactly the controls, DEL, space, `"`, `<`, `>`, `#`,
`` ` ``, `?`, `{`, `}` while the label (fragment) set escapes exactly
the controls, DEL, space, `"`, `<`, `>`, `` ` `` — in particular `#` is
in the facet set (which the spec list omits) and `%` is in neither. -/
theorem C3_amended :
    (FRAGMENT 0x25 = false ∧ QUERY 0x25 = false ∧ PATH 0x25 = false) ∧
    (∀ inSet : Nat → Bool, inSet 0x25 = false → ∀ bs1 bs2 : List Nat,
      percent_encode inSet (bs1 ++ 0x25 :: bs2) =
        percent_encode inSet bs1 ++ '%' :: percent_encode inSet bs2) ∧
    (∀ b, b < 0x80 → (PATH b = true ↔
      (b ≤ 0x1F ∨ b = 0x7F ∨ b = 0x20 ∨ b = 0x22 ∨ b = 0x3C ∨ b = 0x3E ∨ b = 0x23 ∨
        b = 0x60 ∨ b = 0x3F ∨ b = 0x7B ∨ b = 0x7D))) ∧
    (∀ b, b < 0x80 → (FRAGMENT b = true ↔
      (b ≤ 0x1F ∨ b = 0x7F ∨ b = 0x20 ∨ b = 0x22 ∨ b = 0x3C ∨ b = 0x3E ∨ b = 0x60))) := by
  refine ⟨by decide, ?_, by decide, by decide⟩
  intro inSet hset bs1 bs2
  rw [percent_encode_append]
  have hchunk : percent_encode inSet (0x25 :: bs2) = '%' :: percent_encode inSet bs2 := by
    simp only [percent_encode, List.flatMap_cons]
    rw [if_neg (by simp [hset])]
    rfl
  rw [hchunk]

/-- C3 witness instantiating the verbatim-`%` part at concrete bytes. -/
theorem C3_witness :
    percent_encode FRAGMENT ([0x61] ++ 0x25 :: [0x62]) =
      percent_encode FRAGMENT [0x61] ++ '%' :: percent_encode FRAGMENT [0x62] :=
  C3_amended.2.1 FRAGMENT (by decide) [0x61] [0x62]

/-! Claim C8. -/

/-- C8 counterexample: the claim says a label or property key starting
with `/` is invalid, but `is_valid_label` and `Prop::is_valid_key` only
compare against the trimmed form, so `/x` is accepted by both. -/
theorem C8_counterexample :
    is_valid_label "/x".data = true ∧ Prop'.is_valid_key "/x".data = true := by decide

/-- C8 amended: a label and a property key are valid exactly when they
equal their whitespace-trimmed form; a leading `/` does not invalidate
them (only facets reject a leading slash). -/
theorem C8_amended (s : Str) (h : rust_trim ('/' :: s) = '/' :: s) :
    is_valid_label ('/' :: s) = true ∧ Prop'.is_valid_key ('/' :: s) = true := by
  constructor <;> simp [is_valid_label, Prop'.is_valid_key, h]

/-- C8 witness at the concrete string `/x`. -/
theorem C8_witness :
    rust_trim ('/' :: "x".data) = '/' :: "x".data ∧
      (is_valid_label ('/' :: "x".data) = true ∧ Prop'.is_valid_key ('/' :: "x".data) = true) :=
  ⟨by decide, C8_amended "x".data (by decide)⟩

/-! Claim C9. -/

/-- C9: `try_split_facet_into_prefix_and_date_like_suffix` is claimed
total on all UTF-8 facets, but on the valid facet of five copies of α
(ten bytes) the byte index `len - 9 = 1` falls inside a character and
the slice panics before the ASCII check can return `None`. -/
theorem C9_try_split_panics :
    is_valid_facet "ααααα".data = true ∧
      try_split_facet_into_prefix_and_date_like_suffix "ααααα".data = .panicked := by
  decide

/-! Claim C5. -/

/-- C5 counterexample: the claim says only field-wise duplicates are
removed, but `dedup` compares encoded forms: the distinct labels
`a b` and `a%20b` both encode to `#a%20b`, so the second tag is
dropped although the two tags differ. -/
theorem C5_counterexample :
    DecodedTags.dedup ⟨[⟨"a b".data, [], []⟩, ⟨"a%20b".data, [], []⟩], []⟩ =
        ⟨[⟨"a b".data, [], []⟩], []⟩ ∧
      (⟨"a b".data, [], []⟩ : Tag) ≠ ⟨"a%20b".data, [], []⟩ := by decide

theorem dedup_loop_eq_spec :
    ∀ (ts : List Tag) (seen : List Str),
      dedup_loop seen ts =
        dedup_by_encoding_spec (ts.filter fun t => !decide (Tag.encode t ∈ seen)) := by
  intro ts
  induction ts with
  | nil => intro seen; simp [dedup_loop, dedup_by_encoding_spec]
  | cons t ts ih =>
    intro seen
    by_cases hmem : Tag.encode t ∈ seen
    · have hl : dedup_loop seen (t :: ts) = dedup_loop seen ts := by
        simp only [dedup_loop]
        rw [if_pos hmem]
      have hf : List.filter (fun x => !decide (Tag.encode x ∈ seen)) (t :: ts) =
          List.filter (fun x => !decide (Tag.encode x ∈ seen)) ts := by
        rw [List.filter_cons]
        simp [hmem]
      rw [hl, hf]
      exact ih seen
    · have hl : dedup_loop seen (t :: ts) = t :: dedup_loop (Tag.encode t :: seen) ts := by
        simp only [dedup_loop]
        rw [if_neg hmem]
      have hf : List.filter (fun x => !decide (Tag.encode x ∈ seen)) (t :: ts) =
          t :: List.filter (fun x => !decide (Tag.encode x ∈ seen)) ts := by
        rw [List.filter_cons]
        simp [hmem]
      rw [hl, hf, ih (Tag.encode t :: seen)]
      simp only [dedup_by_encoding_spec]
      rw [List.filter_filter]
      have heq : List.filter (fun x => !decide (Tag.encode x ∈ Tag.encode t :: seen)) ts =
          List.filter
            (fun a => (!(Tag.encode a == Tag.encode t) && !decide (Tag.encode a ∈ seen))) ts := by
        apply List.filter_congr
        intro x _
        cases hx1 : (Tag.encode x == Tag.encode t) <;>
          cases hx2 : decide (Tag.encode x ∈ seen) <;>
            simp_all [beq_iff_eq]
      rw [heq]

/-- C5 amended: `dedup` removes a tag exactly when an earlier tag in
the collection has the same encoded form, keeping first occurrences and
the undecoded prefix; field-wise duplicates always encode equally and
are therefore removed, but distinct tags whose encoded forms coincide
are also merged. -/
theorem C5_amended (dt : DecodedTags) :
    (DecodedTags.dedup dt).undecoded = dt.undecoded ∧
      (DecodedTags.dedup dt).tags = dedup_by_encoding_spec dt.tags := by
  refine ⟨rfl, ?_⟩
  have h := dedup_loop_eq_spec dt.tags []
  simpa [DecodedTags.dedup] using h

/-! Comparator lemmas for claim C4. -/

theorem cmp_str_gt_swap : ∀ x y : Str, cmp_str x y = .gt → cmp_str y x ≠ .gt := by
  intro x
  induction x with
  | nil => intro y h; cases y <;> simp [cmp_str] at h
  | cons a as ih =>
    intro y h
    cases y with
    | nil => simp [cmp_str]
    | cons b bs =>
      simp only [cmp_str] at h ⊢
      split_ifs at h with h1 h2
      · rw [if_pos h2]
        simp
      · rw [if_neg h2, if_neg h1]
        exact ih bs h

theorem cmp_str_ngt_trans :
    ∀ x y z : Str, cmp_str x y ≠ .gt → cmp_str y z ≠ .gt → cmp_str x z ≠ .gt := by
  intro x
  induction x with
  | nil =>
    intro y z _ _
    cases z <;> simp [cmp_str]
  | cons a as ih =>
    intro y z h1 h2
    cases y with
    | nil => exact absurd (by simp [cmp_str]) h1
    | cons b bs =>
      cases z with
      | nil => exact absurd (by simp [cmp_str]) h2
      | cons c cs =>
        simp only [cmp_str] at h1 h2 ⊢
        by_cases h3 : a.toNat < c.toNat
        · simp [h3]
        · by_cases h4 : c.toNat < a.toNat
          · exfalso
            by_cases h5 : a.toNat < b.toNat
            · simp [show ¬(b.toNat < c.toNat) by omega, show c.toNat < b.toNat by omega] at h2
            · by_cases h6 : b.toNat < a.toNat
              · simp [h5, h6] at h1
              · simp [show ¬(b.toNat < c.toNat) by omega, show c.toNat < b.toNat by omega] at h2
          · rw [if_neg h3, if_neg h4]
            by_cases h5 : a.toNat < b.toNat
            · exfalso
              simp [show ¬(b.toNat < c.toNat) by omega, show c.toNat < b.toNat by omega] at h2
            · by_cases h6 : b.toNat < a.toNat
              · exfalso
                simp [h5, h6] at h1
              · have hbc1 : ¬(b.toNat < c.toNat) := by omega
                have hbc2 : ¬(c.toNat < b.toNat) := by omega
                rw [if_neg h5, if_neg h6] at h1
                rw [if_neg hbc1, if_neg hbc2] at h2
                exact ih bs cs h1 h2

theorem reorder_le_total (a b : Tag) : reorder_cmp a b ≠ .gt ∨ reorder_cmp b a ≠ .gt := by
  by_cases hgt : reorder_cmp a b = .gt
  · right
    unfold reorder_cmp at hgt ⊢
    by_cases da : facet_has_date_like_suffix a.facet = true <;>
      by_cases db : facet_has_date_like_suffix b.facet = true <;>
        simp [da, db] at hgt ⊢
    · exact cmp_str_gt_swap _ _ hgt
  · exact Or.inl hgt

theorem reorder_le_trans (a b c : Tag) :
    reorder_cmp a b ≠ .gt → reorder_cmp b c ≠ .gt → reorder_cmp a c ≠ .gt := by
  intro h1 h2
  unfold reorder_cmp at h1 h2 ⊢
  by_cases da : facet_has_date_like_suffix a.facet = true <;>
    by_cases db : facet_has_date_like_suffix b.facet = true <;>
      by_cases dc : facet_has_date_like_suffix c.facet = true <;>
        simp [da, db, dc] at h1 h2 ⊢
  exact cmp_str_ngt_trans _ _ _ h2 h1

/-! Claim C4. -/

/-- C4 counterexample: the claim says date-like tags come first after
`reorder_date_like`, but the comparator sends them to the back: with
one date-like and one plain tag, the date-like tag ends up at the later
position. -/
theorem C4_counterexample :
    ¬ ∀ i j : Fin (DecodedTags.reorder_date_like
          ⟨[⟨"x".data, "~20220624".data, []⟩, ⟨"y".data, [], []⟩], []⟩).tags.length,
        facet_has_date_like_suffix ((DecodedTags.reorder_date_like
          ⟨[⟨"x".data, "~20220624".data, []⟩, ⟨"y".data, [], []⟩], []⟩).tags.get i).facet = true →
        facet_has_date_like_suffix ((DecodedTags.reorder_date_like
          ⟨[⟨"x".data, "~20220624".data, []⟩, ⟨"y".data, [], []⟩], []⟩).tags.get j).facet = false →
        (i : Nat) < (j : Nat) := by decide

/-- C4 amended: after `reorder_date_like`, every tag whose facet has a
date-like suffix is positioned after (not before) every tag whose facet
does not; stated for collections whose facets are ASCII, where the
modelled `\d` digit class coincides with the byte regex of the source. -/
theorem C4_amended (dt : DecodedTags)
    (hfacets : ∀ t ∈ dt.tags, ∀ c ∈ t.facet, c.toNat < 0x80)
    (i j : Fin (DecodedTags.reorder_date_like dt).tags.length)
    (hi : facet_has_date_like_suffix ((DecodedTags.reorder_date_like dt).tags.get i).facet = true)
    (hj : facet_has_date_like_suffix ((DecodedTags.reorder_date_like dt).tags.get j).facet = false) :
    (j : Nat) < (i : Nat) := by
  haveI : IsTotal Tag (fun a b => reorder_cmp a b ≠ .gt) := ⟨reorder_le_total⟩
  haveI : IsTrans Tag (fun a b => reorder_cmp a b ≠ .gt) := ⟨reorder_le_trans⟩
  have hs : List.Pairwise (fun a b => reorder_cmp a b ≠ .gt)
      (DecodedTags.reorder_date_like dt).tags :=
    List.sorted_insertionSort _ dt.tags
  rcases Nat.lt_trichotomy (j : Nat) (i : Nat) with hij | hij | hij
  · exact hij
  · exfalso
    rw [show i = j from Fin.ext hij.symm, hj] at hi
    cases hi
  · exfalso
    have hr := List.pairwise_iff_get.mp hs i j (by exact hij)
    apply hr
    unfold reorder_cmp
    rw [hj, hi]
    simp

/-- C4 witness: instantiating the amended claim on a two-element
collection. -/
theorem C4_witness : (0 : Nat) < 1 :=
  C4_amended ⟨[⟨"x".data, "~20220624".data, []⟩, ⟨"y".data, [], []⟩], []⟩ (by decide)
    ⟨1, by decide⟩ ⟨0, by decide⟩ (by decide) (by decide)

/-! Counterexamples for claims C1, C2, C6 and C7. -/

/-- C1 counterexample: the valid tag with (valid) label `%41` encodes
to `#%41`, which decodes to the label `A`: the round trip is not the
identity because `%` is not escaped by the encoder. -/
theorem C1_counterexample :
    Tag.is_valid ⟨"%41".data, [], []⟩ = true ∧
      is_valid_label "%41".data = true ∧
      Tag.decode_str (Tag.encode ⟨"%41".data, [], []⟩) ≠ .ok ⟨"%41".data, [], []⟩ := by
  decide

/-- C2 counterexample: scanning `#%2541` yields the label `%41`, whose
re-encoding `#%41` re-scans to the different label `A`, so
scan-reencode-rescan is not the identity on all inputs. -/
theorem C2_counterexample :
    DecodedTags.decode_str
        (DecodedTags.encode_into (DecodedTags.decode_str "#%2541".data)) ≠
      DecodedTags.decode_str "#%2541".data := by decide

/-- C6 counterexample: the scanner has no newline stop: scanning
`#a\n#b` decodes both tags across the newline and leaves an empty
undecoded prefix, instead of stopping with prefix `#a\n` as the claim
predicts. -/
theorem C6_counterexample :
    DecodedTags.decode_str "#a\n#b".data =
        ⟨[⟨"a".data, [], []⟩, ⟨"b".data, [], []⟩], []⟩ ∧
      DecodedTags.decode_str "#a\n#b".data ≠ ⟨[⟨"b".data, [], []⟩], "#a\n".data⟩ := by
  decide

/-- C7 counterexample: a query segment without any `=` is not rejected:
`facet?key` decodes to a property with name `key` and empty value. -/
theorem C7_counterexample :
    Tag.decode_str "facet?key".data = .ok ⟨[], "facet".data, [⟨"key".data, []⟩]⟩ := by
  decide

/-! Scanner lemmas for claims C2 and C6. -/

theorem findIdx?_some_spec {p : Char → Bool} :
    ∀ (l : Str) (j : Nat), List.findIdx? p l = some j → ∃ x, l[j]? = some x ∧ p x = true := by
  intro l
  induction l with
  | nil => intro j h; simp [List.findIdx?] at h
  | cons c rest ih =>
    intro j h
    rw [List.findIdx?_cons] at h
    split_ifs at h with hc
    · injection h with h0
      subst h0
      exact ⟨c, by simp, hc⟩
    · rw [List.findIdx?_succ, Option.map_eq_some'] at h
      obtain ⟨j', hj', rfl⟩ := h
      obtain ⟨x, hx, hpx⟩ := ih j' hj'
      exact ⟨x, by simpa [List.getElem?_cons_succ] using hx, hpx⟩

theorem split_last_ws_eq_none {r : Str}
    (h : List.findIdx? rust_is_whitespace r.reverse = none) :
    split_last_ws r = ([], r) := by
  unfold split_last_ws
  rw [h]

theorem split_last_ws_eq_some {r : Str} {j : Nat}
    (h : List.findIdx? rust_is_whitespace r.reverse = some j) :
    split_last_ws r = (r.take (r.length - j), r.drop (r.length - j)) := by
  unfold split_last_ws
  rw [h]

theorem split_last_ws_ws_free {r : Str} (h : ∀ c ∈ r, rust_is_whitespace c = false) :
    split_last_ws r = ([], r) :=
  split_last_ws_eq_none
    (List.findIdx?_eq_none_iff.mpr fun c hc => h c (List.mem_reverse.mp hc))

theorem split_last_ws_append {x : Str} {c : Char} {y : Str}
    (hc : rust_is_whitespace c = true) (hy : ∀ c' ∈ y, rust_is_whitespace c' = false) :
    split_last_ws (x ++ c :: y) = (x ++ [c], y) := by
  have hrev : (x ++ c :: y).reverse = y.reverse ++ c :: x.reverse := by
    simp [List.reverse_append]
  have hfind : List.findIdx? rust_is_whitespace (x ++ c :: y).reverse = some y.length := by
    rw [hrev, List.findIdx?_append,
      List.findIdx?_eq_none_iff.mpr fun c' hc' => hy c' (List.mem_reverse.mp hc'),
      List.findIdx?_cons, if_pos hc]
    simp
  rw [split_last_ws_eq_some hfind]
  have hlen : (x ++ c :: y).length - y.length = x.length + 1 := by
    simp only [List.length_append, List.length_cons]
    omega
  rw [hlen]
  have hre : x ++ c :: y = (x ++ [c]) ++ y := by simp
  rw [hre]
  have h1 : ((x ++ [c]) ++ y).take (x.length + 1) = x ++ [c] := by
    have := List.take_left (x ++ [c]) y
    simpa using this
  have h2 : ((x ++ [c]) ++ y).drop (x.length + 1) = y := by
    have := List.drop_left (x ++ [c]) y
    simpa using this
  rw [h1, h2]

theorem ends_ws_iff {s : Str} :
    ends_ws s = true ↔ ∃ x c, s = x ++ [c] ∧ rust_is_whitespace c = true := by
  constructor
  · intro h
    rcases s.eq_nil_or_concat with rfl | ⟨z, c, rfl⟩
    · simp [ends_ws] at h
    · refine ⟨z, c, by simp, ?_⟩
      unfold ends_ws at h
      simp only [List.concat_eq_append] at h
      rwa [List.getLast?_concat] at h
  · rintro ⟨x, c, rfl, hc⟩
    unfold ends_ws
    rw [List.getLast?_concat]
    exact hc

theorem trim_end_eq_self {s : Str} (h : ends_ws s = false) : trim_end s = s := by
  unfold trim_end
  cases hs : s.reverse with
  | nil =>
    have : s = [] := by simpa using congrArg List.reverse hs
    subst this
    rfl
  | cons c rest =>
    have hc : s.getLast? = some c := by rw [← List.head?_reverse, hs]; rfl
    have hcw : rust_is_whitespace c = false := by
      unfold ends_ws at h
      rwa [hc] at h
    rw [List.dropWhile_cons, if_neg (by simp [hcw])]
    rw [← hs, List.reverse_reverse]

theorem trim_end_length_le (s : Str) : (trim_end s).length ≤ s.length := by
  unfold trim_end
  rw [List.length_reverse]
  calc (List.dropWhile rust_is_whitespace s.reverse).length
      ≤ s.reverse.length := (List.dropWhile_sublist _).length_le
    _ = s.length := List.length_reverse s

theorem trim_end_length_lt {s : Str} (h : ends_ws s = true) :
    (trim_end s).length < s.length := by
  obtain ⟨x, c, rfl, hc⟩ := ends_ws_iff.mp h
  unfold trim_end
  rw [List.length_reverse]
  have hrev : (x ++ [c]).reverse = c :: x.reverse := by simp
  rw [hrev, List.dropWhile_cons, if_pos hc]
  have h1 : (List.dropWhile rust_is_whitespace x.reverse).length ≤ x.length := by
    calc (List.dropWhile rust_is_whitespace x.reverse).length
        ≤ x.reverse.length := (List.dropWhile_sublist _).length_le
      _ = x.length := List.length_reverse x
  simp only [List.length_append, List.length_cons]
  omega

theorem trim_end_ne_of_ends_ws {s : Str} (h : ends_ws s = true) : trim_end s ≠ s := by
  intro he
  have := trim_end_length_lt h
  rw [he] at this
  omega

theorem trim_end_append_ws_free {x y : Str}
    (hy : ∀ c ∈ y, rust_is_whitespace c = false) (hne : y ≠ []) :
    trim_end (x ++ y) = x ++ y := by
  apply trim_end_eq_self
  rcases y.eq_nil_or_concat with rfl | ⟨z, c, rfl⟩
  · exact absurd rfl hne
  · rw [show x ++ z.concat c = (x ++ z) ++ [c] by simp]
    unfold ends_ws
    rw [List.getLast?_concat]
    simpa using hy c (by simp)

theorem trim_end_append_ws_only {x W : Str}
    (hW : ∀ c ∈ W, rust_is_whitespace c = true) :
    trim_end (x ++ W) = trim_end x := by
  unfold trim_end
  rw [List.reverse_append, List.dropWhile_append]
  have hdw : List.dropWhile rust_is_whitespace W.reverse = [] := by
    rw [List.dropWhile_eq_nil_iff]
    exact fun c hc => hW c (List.mem_reverse.mp hc)
  rw [hdw]
  rfl

theorem head?_dropWhile {p : Char → Bool} :
    ∀ (l : Str) (c : Char), (List.dropWhile p l).head? = some c → p c = false := by
  intro l
  induction l with
  | nil => intro c h; simp [List.dropWhile] at h
  | cons a as ih =>
    intro c h
    rw [List.dropWhile_cons] at h
    split_ifs at h with ha
    · exact ih c h
    · simp only [List.head?_cons, Option.some.injEq] at h
      subst h
      simpa using ha

theorem ends_ws_trim_end (u : Str) : ends_ws (trim_end u) = false := by
  unfold ends_ws
  cases hl : (trim_end u).getLast? with
  | none => rfl
  | some c =>
    have : (List.dropWhile rust_is_whitespace u.reverse).head? = some c := by
      rw [← hl]
      unfold trim_end
      rw [← List.head?_reverse, List.reverse_reverse]
    exact head?_dropWhile _ c this

theorem split_last_ws_fst_length {u : Str} (hu : u ≠ []) (hr : trim_end u ≠ []) :
    (split_last_ws (trim_end u)).1.length < u.length := by
  have hule : (trim_end u).length ≤ u.length := trim_end_length_le u
  have hupos : 0 < u.length := List.length_pos.mpr hu
  cases hf : List.findIdx? rust_is_whitespace (trim_end u).reverse with
  | none =>
    rw [split_last_ws_eq_none hf]
    exact hupos
  | some j =>
    rw [split_last_ws_eq_some hf]
    obtain ⟨x, hx, hwx⟩ := findIdx?_some_spec _ j hf
    have hj : j < (trim_end u).length := by
      have := (List.getElem?_eq_some_iff.mp hx).1
      simpa using this
    have hj1 : 1 ≤ j := by
      by_contra hj0
      have hj0' : j = 0 := by omega
      subst hj0'
      have hhead : (trim_end u).reverse.head? = some x := by
        rwa [← List.head?_eq_getElem?] at hx
      have hgl : (trim_end u).getLast? = some x := by rwa [List.head?_reverse] at hhead
      have hew : ends_ws (trim_end u) = true := by
        unfold ends_ws
        rw [hgl]
        exact hwx
      rw [ends_ws_trim_end u] at hew
      cases hew
    have hrpos : 0 < (trim_end u).length := List.length_pos.mpr hr
    rw [List.length_take]
    omega

theorem scan_loop_aux_congr :
    ∀ (n : Nat) (u : Str), u.length ≤ n → ∀ f1 f2, u.length < f1 → u.length < f2 →
      scan_loop_aux f1 u = scan_loop_aux f2 u := by
  intro n
  induction n with
  | zero =>
    intro u hu f1 f2 h1 h2
    have hnil : u = [] := List.eq_nil_of_length_eq_zero (by omega)
    subst hnil
    cases f1 with
    | zero => omega
    | succ f1 =>
      cases f2 with
      | zero => omega
      | succ f2 => rfl
  | succ n ih =>
    intro u hu f1 f2 h1 h2
    cases f1 with
    | zero => omega
    | succ f1 =>
      cases f2 with
      | zero => omega
      | succ f2 =>
        by_cases hu0 : u = []
        · subst hu0; rfl
        · simp only [scan_loop_aux]
          rw [if_neg (show ¬(List.isEmpty u = true) by simpa [List.isEmpty_iff] using hu0),
            if_neg (show ¬(List.isEmpty u = true) by simpa [List.isEmpty_iff] using hu0)]
          by_cases hrem : trim_end u = []
          · rw [if_pos (show List.isEmpty (trim_end u) = true by
                simpa [List.isEmpty_iff] using hrem),
              if_pos (show List.isEmpty (trim_end u) = true by
                simpa [List.isEmpty_iff] using hrem)]
          · rw [if_neg (show ¬(List.isEmpty (trim_end u) = true) by
                simpa [List.isEmpty_iff] using hrem),
              if_neg (show ¬(List.isEmpty (trim_end u) = true) by
                simpa [List.isEmpty_iff] using hrem)]
            have hlt := split_last_ws_fst_length hu0 hrem
            cases hdec : Tag.decode_str (split_last_ws (trim_end u)).2 with
            | ok t =>
              simp only [hdec]
              rw [ih (split_last_ws (trim_end u)).1 (by omega) f1 f2 (by omega) (by omega)]
            | parseError => simp only [hdec]
            | invalidTag => simp only [hdec]
            | panicked => simp only [hdec]

theorem scan_loop_eq (u : Str) :
    scan_loop u =
      if u = [] then ([], u)
      else if trim_end u = [] then ([], u)
      else
        match Tag.decode_str (split_last_ws (trim_end u)).2 with
        | .ok t => (t :: (scan_loop (split_last_ws (trim_end u)).1).1,
            (scan_loop (split_last_ws (trim_end u)).1).2)
        | _ => ([], u) := by
  by_cases hu0 : u = []
  · subst hu0; rfl
  · rw [if_neg hu0]
    by_cases hrem : trim_end u = []
    · rw [if_pos hrem]
      show scan_loop_aux (u.length + 1) u = ([], u)
      simp only [scan_loop_aux]
      rw [if_neg (show ¬(List.isEmpty u = true) by simpa [List.isEmpty_iff] using hu0),
        if_pos (show List.isEmpty (trim_end u) = true by simpa [List.isEmpty_iff] using hrem)]
    · rw [if_neg hrem]
      have hlt := split_last_ws_fst_length hu0 hrem
      show scan_loop_aux (u.length + 1) u = _
      simp only [scan_loop_aux]
      rw [if_neg (show ¬(List.isEmpty u = true) by simpa [List.isEmpty_iff] using hu0),
        if_neg (show ¬(List.isEmpty (trim_end u) = true) by
          simpa [List.isEmpty_iff] using hrem)]
      cases hdec : Tag.decode_str (split_last_ws (trim_end u)).2 with
      | ok t =>
        simp only [hdec]
        rw [scan_loop_aux_congr (split_last_ws (trim_end u)).1.length _ le_rfl
          u.length ((split_last_ws (trim_end u)).1.length + 1) (by omega) (by omega)]
        rfl
      | parseError => simp only [hdec]
      | invalidTag => simp only [hdec]
      | panicked => simp only [hdec]

theorem scan_loop_fst_nil {u : Str} (h : (scan_loop u).1 = []) : (scan_loop u).2 = u := by
  rw [scan_loop_eq] at h ⊢
  by_cases hu0 : u = []
  · rw [if_pos hu0]
  · rw [if_neg hu0] at h ⊢
    by_cases hrem : trim_end u = []
    · rw [if_pos hrem]
    · rw [if_neg hrem] at h ⊢
      cases hdec : Tag.decode_str (split_last_ws (trim_end u)).2 with
      | ok t =>
        rw [hdec] at h
        simp at h
      | parseError => rfl
      | invalidTag => rfl
      | panicked => rfl

theorem scan_loop_stable_aux :
    ∀ (n : Nat) (u : Str), u.length ≤ n →
      scan_loop (scan_loop u).2 = ([], (scan_loop u).2) := by
  intro n
  induction n with
  | zero =>
    intro u hu
    have hnil : u = [] := List.eq_nil_of_length_eq_zero (by omega)
    subst hnil
    rfl
  | succ n ih =>
    intro u hu
    by_cases hu0 : u = []
    · subst hu0; rfl
    · by_cases hrem : trim_end u = []
      · have hval : scan_loop u = ([], u) := by
          rw [scan_loop_eq, if_neg hu0, if_pos hrem]
        rw [hval]
        rw [scan_loop_eq, if_neg hu0, if_pos hrem]
      · have hlt := split_last_ws_fst_length hu0 hrem
        cases hdec : Tag.decode_str (split_last_ws (trim_end u)).2 with
        | ok t =>
          have hval : (scan_loop u).2 = (scan_loop (split_last_ws (trim_end u)).1).2 := by
            rw [scan_loop_eq, if_neg hu0, if_neg hrem, hdec]
          rw [hval]
          exact ih (split_last_ws (trim_end u)).1 (by omega)
        | parseError =>
          have hval : scan_loop u = ([], u) := by
            rw [scan_loop_eq, if_neg hu0, if_neg hrem, hdec]
          rw [hval]
          rw [scan_loop_eq, if_neg hu0, if_neg hrem, hdec]
        | invalidTag =>
          have hval : scan_loop u = ([], u) := by
            rw [scan_loop_eq, if_neg hu0, if_neg hrem, hdec]
          rw [hval]
          rw [scan_loop_eq, if_neg hu0, if_neg hrem, hdec]
        | panicked =>
          have hval : scan_loop u = ([], u) := by
            rw [scan_loop_eq, if_neg hu0, if_neg hrem, hdec]
          rw [hval]
          rw [scan_loop_eq, if_neg hu0, if_neg hrem, hdec]

theorem scan_loop_stable (u : Str) :
    scan_loop (scan_loop u).2 = ([], (scan_loop u).2) :=
  scan_loop_stable_aux u.length u le_rfl

theorem split_last_ws_fst_ends (r : Str) :
    (split_last_ws r).1 = [] ∨ ends_ws (split_last_ws r).1 = true := by
  cases hf : List.findIdx? rust_is_whitespace r.reverse with
  | none => rw [split_last_ws_eq_none hf]; exact Or.inl rfl
  | some j =>
    rw [split_last_ws_eq_some hf]
    obtain ⟨x, hx, hwx⟩ := findIdx?_some_spec _ j hf
    have hj : j < r.length := by
      have := (List.getElem?_eq_some_iff.mp hx).1
      simpa using this
    right
    have hxr : r[r.length - 1 - j]? = some x := by
      rwa [List.getElem?_reverse (by simpa using hj)] at hx
    have h1 : ((List.take (r.length - j) r, List.drop (r.length - j) r)).1
        = List.take (r.length - j) r := rfl
    rw [h1]
    unfold ends_ws
    have hlen : (r.take (r.length - j)).length = r.length - j := by
      rw [List.length_take]; omega
    rw [List.getLast?_eq_getElem?, hlen]
    have hidx : r.length - j - 1 = r.length - 1 - j := by omega
    rw [List.getElem?_take, if_pos (show r.length - j - 1 < r.length - j by omega),
      hidx, hxr]
    exact hwx

theorem decode_str_nil_eq : Tag.decode_str [] = DecodeResult.parseError := by decide

theorem encode_ne_nil_of_rt {t : Tag}
    (h : Tag.decode_str (Tag.encode t) = DecodeResult.ok t) : Tag.encode t ≠ [] := by
  intro he
  rw [he, decode_str_nil_eq] at h
  exact DecodeResult.noConfusion h

theorem encode_ws_free (t : Tag) : ∀ c ∈ Tag.encode t, rust_is_whitespace c = false :=
  fun c hc => token_char_good_not_ws (encode_all_good t c hc)

theorem encode_tags_loop_append_one (b : Bool) (ts : List Tag) (t : Tag) :
    encode_tags_loop b (ts ++ [t]) =
      encode_tags_loop b ts ++
        (if ts = [] then (if b then [' '] else []) ++ Tag.encode t
         else ' ' :: Tag.encode t) := by
  induction ts generalizing b with
  | nil => simp [encode_tags_loop]
  | cons u us ih =>
    simp only [List.cons_append, encode_tags_loop, List.append_eq, ih true]
    by_cases hus : us = []
    · subst hus
      simp [encode_tags_loop]
    · rw [if_neg hus, if_neg (show ¬(u :: us = []) by simp)]
      simp [List.append_assoc]

theorem scan_loop_token_step (p W : Str) (t : Tag)
    (hok : Tag.decode_str (Tag.encode t) = DecodeResult.ok t)
    (hW : ∀ c ∈ W, rust_is_whitespace c = true)
    (hsplit : split_last_ws (p ++ Tag.encode t) = (p, Tag.encode t)) :
    scan_loop ((p ++ Tag.encode t) ++ W) =
      (t :: (scan_loop p).1, (scan_loop p).2) := by
  have hne : Tag.encode t ≠ [] := encode_ne_nil_of_rt hok
  have hwf := encode_ws_free t
  have htrim : trim_end ((p ++ Tag.encode t) ++ W) = p ++ Tag.encode t := by
    rw [trim_end_append_ws_only hW, trim_end_append_ws_free hwf hne]
  have hnil : (p ++ Tag.encode t) ++ W ≠ [] := by
    intro h
    rcases List.append_eq_nil.mp h with ⟨h1, _⟩
    rcases List.append_eq_nil.mp h1 with ⟨_, h2⟩
    exact hne h2
  have hrem : trim_end ((p ++ Tag.encode t) ++ W) ≠ [] := by
    rw [htrim]
    intro h
    rcases List.append_eq_nil.mp h with ⟨_, h2⟩
    exact hne h2
  rw [scan_loop_eq, if_neg hnil, if_neg hrem, htrim, hsplit,
    (show ((p, Tag.encode t)).2 = Tag.encode t from rfl),
    (show ((p, Tag.encode t)).1 = p from rfl), hok]

theorem split_last_ws_before_token {u0 : Str} (t : Tag)
    (hsep : u0 = [] ∨ ends_ws u0 = true)
    (hwf : ∀ c ∈ Tag.encode t, rust_is_whitespace c = false) :
    split_last_ws (u0 ++ Tag.encode t) = (u0, Tag.encode t) := by
  rcases hsep with rfl | hend
  · simpa using split_last_ws_ws_free hwf
  · obtain ⟨x, c, rfl, hc⟩ := ends_ws_iff.mp hend
    rw [show (x ++ [c]) ++ Tag.encode t = x ++ c :: Tag.encode t by simp]
    exact split_last_ws_append hc hwf

theorem scan_loop_tokens (ts : List Tag) (u0 : Str)
    (hstab : scan_loop u0 = ([], u0))
    (hsep : u0 = [] ∨ ends_ws u0 = true) :
    ∀ W : Str,
      (∀ t ∈ ts, Tag.decode_str (Tag.encode t) = DecodeResult.ok t) →
      (∀ c ∈ W, rust_is_whitespace c = true) →
      (ts = [] → W = []) →
      scan_loop ((u0 ++ encode_tags_loop false ts) ++ W) = (ts.reverse, u0) := by
  induction ts using List.reverseRecOn with
  | nil =>
    intro W hrt hW hW0
    rw [hW0 rfl]
    simpa [encode_tags_loop] using hstab
  | append_singleton ts t ih =>
    intro W hrt hW hW0
    have hok : Tag.decode_str (Tag.encode t) = DecodeResult.ok t := hrt t (by simp)
    have hwf := encode_ws_free t
    rw [encode_tags_loop_append_one]
    by_cases hts : ts = []
    · subst hts
      rw [if_pos rfl]
      have hshape : (u0 ++ (encode_tags_loop false [] ++
          ((if (false : Bool) then [' '] else []) ++ Tag.encode t))) ++ W
          = (u0 ++ Tag.encode t) ++ W := by
        simp [encode_tags_loop]
      rw [hshape, scan_loop_token_step u0 W t hok hW
        (split_last_ws_before_token t hsep hwf), hstab]
      rfl
    · rw [if_neg hts]
      have hshape : (u0 ++ (encode_tags_loop false ts ++ ' ' :: Tag.encode t)) ++ W
          = (((u0 ++ encode_tags_loop false ts) ++ [' ']) ++ Tag.encode t) ++ W := by
        simp
      rw [hshape]
      have hsplit : split_last_ws (((u0 ++ encode_tags_loop false ts) ++ [' '])
          ++ Tag.encode t) = ((u0 ++ encode_tags_loop false ts) ++ [' '], Tag.encode t) := by
        rw [show ((u0 ++ encode_tags_loop false ts) ++ [' ']) ++ Tag.encode t
          = (u0 ++ encode_tags_loop false ts) ++ ' ' :: Tag.encode t by simp]
        exact split_last_ws_append (by decide) hwf
      rw [scan_loop_token_step _ W t hok hW hsplit]
      have hrec : scan_loop ((u0 ++ encode_tags_loop false ts) ++ [' '])
          = (ts.reverse, u0) := by
        refine ih [' '] (fun t' ht' => hrt t' (by simp [ht'])) ?_ (fun h => absurd h hts)
        intro c hc
        simp only [List.mem_singleton] at hc
        subst hc
        decide
      rw [hrec]
      simp

theorem scan_loop_snd_ends_aux :
    ∀ (n : Nat) (u : Str), u.length ≤ n → (scan_loop u).1 ≠ [] →
      (scan_loop u).2 = [] ∨ ends_ws (scan_loop u).2 = true := by
  intro n
  induction n with
  | zero =>
    intro u hu h
    have hnil : u = [] := List.length_eq_zero.mp (Nat.le_zero.mp hu)
    subst hnil
    exact absurd rfl h
  | succ n ih =>
    intro u hu h
    rw [scan_loop_eq] at h ⊢
    by_cases hu0 : u = []
    · rw [if_pos hu0] at h
      exact absurd rfl h
    · rw [if_neg hu0] at h ⊢
      by_cases hrem : trim_end u = []
      · rw [if_pos hrem] at h
        exact absurd rfl h
      · rw [if_neg hrem] at h ⊢
        have hlt := split_last_ws_fst_length hu0 hrem
        cases hdec : Tag.decode_str (split_last_ws (trim_end u)).2 with
        | ok t =>
          rw [hdec] at h
          by_cases hw : (scan_loop (split_last_ws (trim_end u)).1).1 = []
          · rw [scan_loop_fst_nil hw]
            exact split_last_ws_fst_ends (trim_end u)
          · exact ih (split_last_ws (trim_end u)).1 (by omega) hw
        | parseError =>
          rw [hdec] at h
          exact absurd rfl h
        | invalidTag =>
          rw [hdec] at h
          exact absurd rfl h
        | panicked =>
          rw [hdec] at h
          exact absurd rfl h

theorem scan_loop_snd_ends {u : Str} (h : (scan_loop u).1 ≠ []) :
    (scan_loop u).2 = [] ∨ ends_ws (scan_loop u).2 = true :=
  scan_loop_snd_ends_aux u.length u le_rfl h

/-- C6 (amended): `DecodedTags::decode_str` treats a newline as
ordinary whitespace.  Appending an encoded tag after a newline never
stops the scan: the tag is decoded and appended to the tags scanned
from the rest, and the undecoded prefix is the same as if the tag were
absent — the scanner pulls tags across newlines instead of treating
whitespace containing a newline as a hard boundary. -/
theorem C6_amended (u : Str) (t : Tag)
    (hrt : Tag.decode_str (Tag.encode t) = DecodeResult.ok t) :
    (DecodedTags.decode_str (u ++ '\n' :: Tag.encode t)).tags
      = (DecodedTags.decode_str (u ++ ['\n'])).tags ++ [t] ∧
    (DecodedTags.decode_str (u ++ '\n' :: Tag.encode t)).undecoded
      = (DecodedTags.decode_str (u ++ ['\n'])).undecoded := by
  have hend : ends_ws (u ++ ['\n']) = true :=
    ends_ws_iff.mpr ⟨u, '\n', rfl, by decide⟩
  have hstep := scan_loop_token_step (u ++ ['\n']) [] t hrt (by simp)
    (split_last_ws_before_token t (Or.inr hend) (encode_ws_free t))
  rw [show ((u ++ ['\n']) ++ Tag.encode t) ++ ([] : Str)
    = u ++ '\n' :: Tag.encode t by simp] at hstep
  simp only [DecodedTags.decode_str]
  rw [hstep]
  exact ⟨by simp, rfl⟩

theorem C6_witness :
    (DecodedTags.decode_str ("#a".data ++ '\n' :: Tag.encode ⟨"b".data, [], []⟩)).tags
      = (DecodedTags.decode_str ("#a".data ++ ['\n'])).tags ++ [⟨"b".data, [], []⟩] ∧
    (DecodedTags.decode_str ("#a".data ++ '\n' :: Tag.encode ⟨"b".data, [], []⟩)).undecoded
      = (DecodedTags.decode_str ("#a".data ++ ['\n'])).undecoded :=
  C6_amended "#a".data ⟨"b".data, [], []⟩ (by decide)

theorem decode_str_tokens (ts : List Tag) (u0 : Str)
    (hstab : scan_loop u0 = ([], u0))
    (hsep : u0 = [] ∨ ends_ws u0 = true)
    (hrt : ∀ t ∈ ts, Tag.decode_str (Tag.encode t) = DecodeResult.ok t)
    (hu : (if (rust_trim u0).isEmpty then [] else u0) = u0) :
    DecodedTags.decode_str (u0 ++ encode_tags_loop false ts) = ⟨ts, u0⟩ := by
  have h := scan_loop_tokens ts u0 hstab hsep [] hrt (by simp) (fun _ => rfl)
  rw [List.append_nil] at h
  simp only [DecodedTags.decode_str, h]
  rw [List.reverse_reverse]
  exact congrArg (DecodedTags.mk ts) hu

/-- C2 (amended): for any text whose whitespace characters are all
ASCII (where the byte-level token split of the source coincides with
this character-level model) and whose decoded tags each survive the
single-token round trip (decoding the re-encoded tag yields the tag
itself), scanning, re-encoding with `DecodedTags::encode_into` and
re-scanning yields exactly the same `DecodedTags` value, with the
undecoded prefix reproduced verbatim.  The single-token round-trip
hypothesis is necessary: a decoded field may contain a literal `%`
that the encoder leaves verbatim and the re-scan decodes again. -/
theorem C2_amended (s : Str)
    (hws : ∀ c ∈ s, rust_is_whitespace c = true → c.toNat < 128)
    (hrt : ∀ t ∈ (DecodedTags.decode_str s).tags,
      Tag.decode_str (Tag.encode t) = DecodeResult.ok t) :
    DecodedTags.decode_str ((DecodedTags.decode_str s).encode_into)
      = DecodedTags.decode_str s := by
  by_cases h1 : (scan_loop s).1 = []
  · have h2 := scan_loop_fst_nil h1
    have htags : (DecodedTags.decode_str s).tags = [] := by
      show (scan_loop s).1.reverse = []
      rw [h1]
      rfl
    have henc : (DecodedTags.decode_str s).encode_into
        = (DecodedTags.decode_str s).undecoded := by
      simp only [DecodedTags.encode_into, htags, encode_tags_loop, List.append_nil]
    rw [henc]
    have hund : (DecodedTags.decode_str s).undecoded
        = if (rust_trim s).isEmpty then [] else s := by
      show (if (rust_trim (scan_loop s).2).isEmpty then [] else (scan_loop s).2) = _
      rw [h2]
    rw [hund]
    by_cases h3 : (rust_trim s).isEmpty = true
    · rw [if_pos h3]
      have hR : DecodedTags.decode_str s = ⟨[], []⟩ := by
        show (⟨(scan_loop s).1.reverse,
          if (rust_trim (scan_loop s).2).isEmpty then [] else (scan_loop s).2⟩ :
            DecodedTags) = ⟨[], []⟩
        rw [h1, h2, if_pos h3]
        rfl
      rw [hR]
      decide
    · rw [if_neg h3]
  · have hends := scan_loop_snd_ends h1
    have hund : (DecodedTags.decode_str s).undecoded
        = if (rust_trim (scan_loop s).2).isEmpty then [] else (scan_loop s).2 := rfl
    by_cases h3 : (rust_trim (scan_loop s).2).isEmpty = true
    · have hu0 : (DecodedTags.decode_str s).undecoded = [] := by
        rw [hund, if_pos h3]
      have henc : (DecodedTags.decode_str s).encode_into
          = encode_tags_loop false (DecodedTags.decode_str s).tags := by
        simp only [DecodedTags.encode_into, hu0, List.isEmpty_nil, Bool.not_true,
          Bool.false_and, List.nil_append]
      have hdt := decode_str_tokens (DecodedTags.decode_str s).tags [] rfl
        (Or.inl rfl) hrt (by rfl)
      rw [List.nil_append] at hdt
      rw [henc, hdt, ← hu0]
    · have hne2 : (scan_loop s).2 ≠ [] := by
        intro hh
        rw [hh] at h3
        exact h3 rfl
      have hend2 : ends_ws (scan_loop s).2 = true := hends.resolve_left hne2
      have hu0 : (DecodedTags.decode_str s).undecoded = (scan_loop s).2 := by
        rw [hund, if_neg h3]
      have hflag : (!(scan_loop s).2.isEmpty &&
          (trim_end (scan_loop s).2 == (scan_loop s).2)) = false := by
        have hb : (trim_end (scan_loop s).2 == (scan_loop s).2) = false :=
          beq_eq_false_iff_ne.mpr (trim_end_ne_of_ends_ws hend2)
        rw [hb, Bool.and_false]
      have henc : (DecodedTags.decode_str s).encode_into
          = (scan_loop s).2 ++ encode_tags_loop false (DecodedTags.decode_str s).tags := by
        simp only [DecodedTags.encode_into]
        rw [hu0, hflag]
      rw [henc, decode_str_tokens (DecodedTags.decode_str s).tags (scan_loop s).2
        (scan_loop_stable s) (Or.inr hend2) hrt (by rw [if_neg h3]), ← hu0]

theorem C2_witness :
    (∀ c ∈ "note #a".data, rust_is_whitespace c = true → c.toNat < 128) ∧
    (∀ t ∈ (DecodedTags.decode_str "note #a".data).tags,
      Tag.decode_str (Tag.encode t) = DecodeResult.ok t) ∧
    DecodedTags.decode_str ((DecodedTags.decode_str "note #a".data).encode_into)
      = DecodedTags.decode_str "note #a".data :=
  ⟨by decide, by decide, C2_amended "note #a".data (by decide) (by decide)⟩

/-! Round-trip lemmas for the codec pipeline (claims C1 and C7). -/

theorem char_valid_bounds (c : Char) :
    c.toNat < 0x110000 ∧ ¬(0xD800 ≤ c.toNat ∧ c.toNat < 0xE000) := by
  rcases c.valid with h | h <;> simp only [Char.toNat] <;> omega

theorem utf8_decode_cons (b : Nat) (rest : List Nat) :
    utf8_decode (b :: rest) =
      (if b < 0x80 then (utf8_decode rest).map (fun s => Char.ofNat b :: s)
      else if b < 0xC2 then none
      else if b < 0xE0 then
        match rest with
        | b2 :: rest2 =>
          if 0x80 ≤ b2 ∧ b2 < 0xC0 then
            (utf8_decode rest2).map (fun s => Char.ofNat ((b - 0xC0) * 0x40 + (b2 - 0x80)) :: s)
          else none
        | [] => none
      else if b < 0xF0 then
        match rest with
        | b2 :: b3 :: rest3 =>
          let n := (b - 0xE0) * 0x1000 + (b2 - 0x80) * 0x40 + (b3 - 0x80)
          if 0x80 ≤ b2 ∧ b2 < 0xC0 ∧ 0x80 ≤ b3 ∧ b3 < 0xC0 ∧ 0x800 ≤ n ∧
              ¬(0xD800 ≤ n ∧ n < 0xE000) then
            (utf8_decode rest3).map (fun s => Char.ofNat n :: s)
          else none
        | _ => none
      else if b < 0xF5 then
        match rest with
        | b2 :: b3 :: b4 :: rest4 =>
          let n := (b - 0xF0) * 0x40000 + (b2 - 0x80) * 0x1000 + (b3 - 0x80) * 0x40 + (b4 - 0x80)
          if 0x80 ≤ b2 ∧ b2 < 0xC0 ∧ 0x80 ≤ b3 ∧ b3 < 0xC0 ∧ 0x80 ≤ b4 ∧ b4 < 0xC0 ∧
              0x10000 ≤ n ∧ n < 0x110000 then
            (utf8_decode rest4).map (fun s => Char.ofNat n :: s)
          else none
        | _ => none
      else none) := by
  rcases rest with _ | ⟨b2, _ | ⟨b3, _ | ⟨b4, rest4⟩⟩⟩ <;> rfl

theorem utf8_decode_one {b : Nat} (h : b < 0x80) (rest : List Nat) :
    utf8_decode (b :: rest) = (utf8_decode rest).map (fun s => Char.ofNat b :: s) := by
  rw [utf8_decode_cons, if_pos h]

theorem utf8_decode_two {b b2 : Nat} (h : 0xC2 ≤ b ∧ b < 0xE0)
    (hb2 : 0x80 ≤ b2 ∧ b2 < 0xC0) (rest : List Nat) :
    utf8_decode (b :: b2 :: rest) =
      (utf8_decode rest).map (fun s => Char.ofNat ((b - 0xC0) * 0x40 + (b2 - 0x80)) :: s) := by
  rw [utf8_decode_cons, if_neg (show ¬(b < 0x80) by omega),
    if_neg (show ¬(b < 0xC2) by omega), if_pos (show b < 0xE0 by omega)]
  show (if 0x80 ≤ b2 ∧ b2 < 0xC0 then
      (utf8_decode rest).map (fun s => Char.ofNat ((b - 0xC0) * 0x40 + (b2 - 0x80)) :: s)
    else none) = _
  rw [if_pos hb2]

theorem utf8_decode_three {b b2 b3 : Nat} (h : 0xE0 ≤ b ∧ b < 0xF0)
    (hc : 0x80 ≤ b2 ∧ b2 < 0xC0 ∧ 0x80 ≤ b3 ∧ b3 < 0xC0 ∧
      0x800 ≤ (b - 0xE0) * 0x1000 + (b2 - 0x80) * 0x40 + (b3 - 0x80) ∧
      ¬(0xD800 ≤ (b - 0xE0) * 0x1000 + (b2 - 0x80) * 0x40 + (b3 - 0x80) ∧
        (b - 0xE0) * 0x1000 + (b2 - 0x80) * 0x40 + (b3 - 0x80) < 0xE000))
    (rest : List Nat) :
    utf8_decode (b :: b2 :: b3 :: rest) =
      (utf8_decode rest).map
        (fun s => Char.ofNat ((b - 0xE0) * 0x1000 + (b2 - 0x80) * 0x40 + (b3 - 0x80)) :: s) := by
  rw [utf8_decode_cons, if_neg (show ¬(b < 0x80) by omega),
    if_neg (show ¬(b < 0xC2) by omega), if_neg (show ¬(b < 0xE0) by omega),
    if_pos (show b < 0xF0 by omega)]
  show (if 0x80 ≤ b2 ∧ b2 < 0xC0 ∧ 0x80 ≤ b3 ∧ b3 < 0xC0 ∧
      0x800 ≤ (b - 0xE0) * 0x1000 + (b2 - 0x80) * 0x40 + (b3 - 0x80) ∧
      ¬(0xD800 ≤ (b - 0xE0) * 0x1000 + (b2 - 0x80) * 0x40 + (b3 - 0x80) ∧
        (b - 0xE0) * 0x1000 + (b2 - 0x80) * 0x40 + (b3 - 0x80) < 0xE000) then
      (utf8_decode rest).map
        (fun s => Char.ofNat ((b - 0xE0) * 0x1000 + (b2 - 0x80) * 0x40 + (b3 - 0x80)) :: s)
    else none) = _
  rw [if_pos hc]

theorem utf8_decode_four {b b2 b3 b4 : Nat} (h : 0xF0 ≤ b ∧ b < 0xF5)
    (hc : 0x80 ≤ b2 ∧ b2 < 0xC0 ∧ 0x80 ≤ b3 ∧ b3 < 0xC0 ∧ 0x80 ≤ b4 ∧ b4 < 0xC0 ∧
      0x10000 ≤ (b - 0xF0) * 0x40000 + (b2 - 0x80) * 0x1000 + (b3 - 0x80) * 0x40 + (b4 - 0x80) ∧
      (b - 0xF0) * 0x40000 + (b2 - 0x80) * 0x1000 + (b3 - 0x80) * 0x40 + (b4 - 0x80) < 0x110000)
    (rest : List Nat) :
    utf8_decode (b :: b2 :: b3 :: b4 :: rest) =
      (utf8_decode rest).map
        (fun s => Char.ofNat ((b - 0xF0) * 0x40000 + (b2 - 0x80) * 0x1000 +
          (b3 - 0x80) * 0x40 + (b4 - 0x80)) :: s) := by
  rw [utf8_decode_cons, if_neg (show ¬(b < 0x80) by omega),
    if_neg (show ¬(b < 0xC2) by omega), if_neg (show ¬(b < 0xE0) by omega),
    if_neg (show ¬(b < 0xF0) by omega), if_pos (show b < 0xF5 by omega)]
  show (if 0x80 ≤ b2 ∧ b2 < 0xC0 ∧ 0x80 ≤ b3 ∧ b3 < 0xC0 ∧ 0x80 ≤ b4 ∧ b4 < 0xC0 ∧
      0x10000 ≤ (b - 0xF0) * 0x40000 + (b2 - 0x80) * 0x1000 + (b3 - 0x80) * 0x40 + (b4 - 0x80) ∧
      (b - 0xF0) * 0x40000 + (b2 - 0x80) * 0x1000 + (b3 - 0x80) * 0x40 + (b4 - 0x80) < 0x110000 then
      (utf8_decode rest).map
        (fun s => Char.ofNat ((b - 0xF0) * 0x40000 + (b2 - 0x80) * 0x1000 +
          (b3 - 0x80) * 0x40 + (b4 - 0x80)) :: s)
    else none) = _
  rw [if_pos hc]

theorem utf8_decode_bytes_cons (c : Char) (bs : List Nat) :
    utf8_decode (utf8_bytes_char c ++ bs) = (utf8_decode bs).map (fun s => c :: s) := by
  obtain ⟨hlt, hsur⟩ := char_valid_bounds c
  unfold utf8_bytes_char
  by_cases h1 : c.toNat < 0x80
  · rw [if_pos h1]
    show utf8_decode (c.toNat :: bs) = _
    rw [utf8_decode_one h1, Char.ofNat_toNat]
  · by_cases h2 : c.toNat < 0x800
    · rw [if_neg h1, if_pos h2]
      show utf8_decode ((0xC0 + c.toNat / 0x40) :: (0x80 + c.toNat % 0x40) :: bs) = _
      rw [utf8_decode_two (by omega) (by omega) bs,
        show (0xC0 + c.toNat / 0x40 - 0xC0) * 0x40 + (0x80 + c.toNat % 0x40 - 0x80)
          = c.toNat by omega, Char.ofNat_toNat]
    · by_cases h3 : c.toNat < 0x10000
      · rw [if_neg h1, if_neg h2, if_pos h3]
        show utf8_decode ((0xE0 + c.toNat / 0x1000) :: (0x80 + c.toNat / 0x40 % 0x40) ::
          (0x80 + c.toNat % 0x40) :: bs) = _
        rw [utf8_decode_three (by omega) (by constructor <;> omega) bs,
          show (0xE0 + c.toNat / 0x1000 - 0xE0) * 0x1000 +
            (0x80 + c.toNat / 0x40 % 0x40 - 0x80) * 0x40 +
            (0x80 + c.toNat % 0x40 - 0x80) = c.toNat by omega, Char.ofNat_toNat]
      · rw [if_neg h1, if_neg h2, if_neg h3]
        show utf8_decode ((0xF0 + c.toNat / 0x40000) :: (0x80 + c.toNat / 0x1000 % 0x40) ::
          (0x80 + c.toNat / 0x40 % 0x40) :: (0x80 + c.toNat % 0x40) :: bs) = _
        rw [utf8_decode_four (by omega) (by constructor <;> omega) bs,
          show (0xF0 + c.toNat / 0x40000 - 0xF0) * 0x40000 +
            (0x80 + c.toNat / 0x1000 % 0x40 - 0x80) * 0x1000 +
            (0x80 + c.toNat / 0x40 % 0x40 - 0x80) * 0x40 +
            (0x80 + c.toNat % 0x40 - 0x80) = c.toNat by omega, Char.ofNat_toNat]

theorem utf8_decode_str_bytes (s : Str) : utf8_decode (str_bytes s) = some s := by
  induction s with
  | nil => rfl
  | cons c cs ih =>
    show utf8_decode (utf8_bytes_char c ++ str_bytes cs) = _
    rw [utf8_decode_bytes_cons, ih]
    rfl

theorem percent_decode_aux_cons (fuel : Nat) (c : Char) (rest : Str) :
    percent_decode_aux (fuel + 1) (c :: rest) =
      (if c = '%' then
        match rest with
        | h :: l :: rest2 =>
          match hex_val h, hex_val l with
          | some hv, some lv => (hv * 16 + lv) :: percent_decode_aux fuel rest2
          | _, _ => c.toNat :: percent_decode_aux fuel rest
        | _ => c.toNat :: percent_decode_aux fuel rest
      else c.toNat :: percent_decode_aux fuel rest) := by
  rcases rest with _ | ⟨h, _ | ⟨l, rest2⟩⟩ <;> rfl

theorem percent_decode_aux_esc {h l : Char} {hv lv : Nat}
    (hh : hex_val h = some hv) (hl : hex_val l = some lv) (fuel : Nat) (rest : Str) :
    percent_decode_aux (fuel + 1) ('%' :: h :: l :: rest) =
      (hv * 16 + lv) :: percent_decode_aux fuel rest := by
  rw [percent_decode_aux_cons, if_pos rfl]
  show (match hex_val h, hex_val l with
    | some hv, some lv => (hv * 16 + lv) :: percent_decode_aux fuel rest
    | _, _ => Char.toNat '%' :: percent_decode_aux fuel (h :: l :: rest)) = _
  rw [hh, hl]

theorem percent_decode_aux_verbatim {c : Char} (hc : c ≠ '%') (fuel : Nat) (rest : Str) :
    percent_decode_aux (fuel + 1) (c :: rest) = c.toNat :: percent_decode_aux fuel rest := by
  rw [percent_decode_aux_cons, if_neg hc]

theorem hex_val_hex_digit_upper : ∀ n, n < 16 → hex_val (hex_digit_upper n) = some n := by
  decide

theorem ascii_mem_str_bytes {b : Nat} (hb : b < 0x80) {s : Str} (h : b ∈ str_bytes s) :
    ∃ c ∈ s, c.toNat = b := by
  simp only [str_bytes, List.mem_flatMap] at h
  obtain ⟨c, hc, hbc⟩ := h
  refine ⟨c, hc, ?_⟩
  simp only [utf8_bytes_char] at hbc
  split_ifs at hbc <;> simp_all <;> omega

theorem char_not_mem_bytes {ch : Char} (hch : ch.toNat < 0x80) {s : Str} (h : ch ∉ s) :
    ch.toNat ∉ str_bytes s := by
  intro hmem
  obtain ⟨c, hc, hcn⟩ := ascii_mem_str_bytes hch hmem
  have : c = ch := by
    rw [← Char.ofNat_toNat c, hcn, Char.ofNat_toNat]
  exact h (this ▸ hc)

theorem percent_decode_aux_encode (S : Nat → Bool) :
    ∀ (bs : List Nat) (fuel : Nat), (percent_encode S bs).length ≤ fuel →
      (∀ b ∈ bs, b < 256) → 0x25 ∉ bs →
      percent_decode_aux fuel (percent_encode S bs) = bs := by
  intro bs
  induction bs with
  | nil =>
    intro fuel _ _ _
    cases fuel <;> rfl
  | cons b rest ih =>
    intro fuel hf hlt h25
    have hb : b < 256 := hlt b (List.mem_cons_self _ _)
    have hlt' : ∀ b' ∈ rest, b' < 256 := fun b' hb' => hlt b' (List.mem_cons_of_mem _ hb')
    have h25' : 0x25 ∉ rest := fun hm => h25 (List.mem_cons_of_mem _ hm)
    have hbne : b ≠ 0x25 := fun he => h25 (he ▸ List.mem_cons_self _ _)
    have hpe : percent_encode S (b :: rest) =
        (if S b || decide (0x80 ≤ b) then
          ['%', hex_digit_upper (b / 16), hex_digit_upper (b % 16)]
        else [Char.ofNat b]) ++ percent_encode S rest := by
      simp [percent_encode]
    by_cases hesc : (S b || decide (0x80 ≤ b)) = true
    · rw [hpe, if_pos hesc] at hf ⊢
      simp only [List.length_append, List.length_cons] at hf
      obtain ⟨f, rfl⟩ : ∃ f, fuel = f + 1 := ⟨fuel - 1, by omega⟩
      show percent_decode_aux (f + 1)
        ('%' :: hex_digit_upper (b / 16) :: hex_digit_upper (b % 16) ::
          percent_encode S rest) = b :: rest
      rw [percent_decode_aux_esc (hex_val_hex_digit_upper (b / 16) (by omega))
        (hex_val_hex_digit_upper (b % 16) (by omega)),
        ih f (by omega) hlt' h25']
      congr 1
      omega
    · rw [hpe, if_neg hesc] at hf ⊢
      simp only [List.length_append, List.length_cons] at hf
      obtain ⟨f, rfl⟩ : ∃ f, fuel = f + 1 := ⟨fuel - 1, by omega⟩
      simp only [Bool.or_eq_true, decide_eq_true_eq, not_or, not_le] at hesc
      show percent_decode_aux (f + 1) (Char.ofNat b :: percent_encode S rest) = b :: rest
      rw [percent_decode_aux_verbatim (show Char.ofNat b ≠ '%' from fun he => by
          have : (Char.ofNat b).toNat = 0x25 := by rw [he]; rfl
          rw [char_toNat_ofNat_ascii hesc.2] at this
          exact hbne this) f,
        char_toNat_ofNat_ascii hesc.2, ih f (by omega) hlt' h25']

theorem percent_decode_encode (S : Nat → Bool) (bs : List Nat)
    (hlt : ∀ b ∈ bs, b < 256) (h25 : 0x25 ∉ bs) :
    percent_decode (percent_encode S bs) = bs :=
  percent_decode_aux_encode S bs _ le_rfl hlt h25

theorem percent_encode_id {S : Nat → Bool} :
    ∀ s : Str, (∀ c ∈ s, c.toNat < 0x80 ∧ S c.toNat = false) →
      percent_encode S (str_bytes s) = s := by
  intro s
  induction s with
  | nil => intro _; rfl
  | cons c rest ih =>
    intro h
    obtain ⟨hlt, hset⟩ := h c (List.mem_cons_self _ _)
    have hbytes : str_bytes (c :: rest) = c.toNat :: str_bytes rest := by
      show utf8_bytes_char c ++ str_bytes rest = _
      unfold utf8_bytes_char
      rw [if_pos hlt]
      rfl
    rw [hbytes]
    show (if S c.toNat || decide (0x80 ≤ c.toNat) then
        ['%', hex_digit_upper (c.toNat / 16), hex_digit_upper (c.toNat % 16)]
      else [Char.ofNat c.toNat]) ++ percent_encode S (str_bytes rest) = c :: rest
    rw [if_neg (by simp [hset]; omega), Char.ofNat_toNat,
      ih (fun c' hc' => h c' (List.mem_cons_of_mem _ hc'))]
    rfl

theorem field_decode_encode (S : Nat → Bool) (s : Str) (h25 : '%' ∉ s) :
    utf8_decode (percent_decode (percent_encode S (str_bytes s))) = some s := by
  rw [percent_decode_encode S (str_bytes s) (str_bytes_bound s) (char_not_mem_bytes (by decide) h25),
    utf8_decode_str_bytes]

theorem split_first_not_mem {sep : Char} : ∀ {s : Str}, sep ∉ s →
    split_first sep s = (s, none) := by
  intro s
  induction s with
  | nil => intro _; rfl
  | cons c rest ih =>
    intro h
    show split_first sep (c :: rest) = _
    rw [split_first, if_neg (show ¬(c = sep) from
      fun he => h (he ▸ List.mem_cons_self _ _))]
    rw [ih (fun hm => h (List.mem_cons_of_mem _ hm))]

theorem split_first_append {sep : Char} : ∀ {x : Str} (y : Str), sep ∉ x →
    split_first sep (x ++ sep :: y) = (x, some y) := by
  intro x
  induction x with
  | nil =>
    intro y _
    show split_first sep (sep :: y) = _
    rw [split_first, if_pos rfl]
  | cons c rest ih =>
    intro y h
    show split_first sep (c :: (rest ++ sep :: y)) = _
    rw [split_first, if_neg (show ¬(c = sep) from
      fun he => h (he ▸ List.mem_cons_self _ _))]
    rw [ih y (fun hm => h (List.mem_cons_of_mem _ hm))]

theorem scheme_split_aux_stop : ∀ (ys acc zs : Str), ':' ∉ ys →
    (∀ z, zs.head? = some z → z ≠ ':' ∧ is_scheme_char z = false) →
    scheme_split_aux acc (ys ++ zs) = none := by
  intro ys
  induction ys with
  | nil =>
    intro acc zs _ hz
    cases zs with
    | nil => rfl
    | cons z zs2 =>
      obtain ⟨hne, hns⟩ := hz z rfl
      show scheme_split_aux acc (z :: zs2) = none
      rw [scheme_split_aux, if_neg hne,
        if_neg (show ¬(is_scheme_char z = true) by simp [hns])]
  | cons y ys2 ih =>
    intro acc zs hy hz
    have hyne : y ≠ ':' := fun he => hy (he ▸ List.mem_cons_self _ _)
    show scheme_split_aux acc (y :: (ys2 ++ zs)) = none
    rw [scheme_split_aux, if_neg hyne]
    by_cases hs : is_scheme_char y = true
    · rw [if_pos hs]
      exact ih _ zs (fun hm => hy (List.mem_cons_of_mem _ hm)) hz
    · rw [if_neg hs]

theorem dropWhile_le20_id {l : Str} (h : ∀ c ∈ l, 0x20 < c.toNat) :
    l.dropWhile (fun c : Char => decide (c.toNat ≤ 0x20)) = l := by
  cases l with
  | nil => rfl
  | cons a l2 =>
    rw [List.dropWhile_cons, if_neg (show ¬(decide (a.toNat ≤ 0x20) = true) by
      simp only [decide_eq_true_eq, not_le]
      exact h a (List.mem_cons_self _ _))]

theorem url_strip_c0_space_id {s : Str} (h : ∀ c ∈ s, 0x20 < c.toNat) :
    url_strip_c0_space s = s := by
  show ((s.dropWhile (fun c : Char => decide (c.toNat ≤ 0x20))).reverse.dropWhile
    (fun c : Char => decide (c.toNat ≤ 0x20))).reverse = s
  rw [dropWhile_le20_id h,
    dropWhile_le20_id (fun c hc => h c (List.mem_reverse.mp hc)), List.reverse_reverse]

theorem url_remove_tab_newline_id {s : Str} (h : ∀ c ∈ s, 0x20 < c.toNat) :
    url_remove_tab_newline s = s := by
  apply List.filter_eq_self.mpr
  intro c hc
  have := h c hc
  simp only [Bool.not_eq_true', Bool.or_eq_false_iff, beq_eq_false_iff_ne]
  omega

theorem rust_trim_id {s : Str} (h : ∀ c ∈ s, rust_is_whitespace c = false) :
    rust_trim s = s := by
  have hte : trim_end s = s := by
    apply trim_end_eq_self
    unfold ends_ws
    cases hl : s.getLast? with
    | none => rfl
    | some c =>
      obtain ⟨l2, rfl⟩ := List.getLast?_eq_some_iff.mp hl
      exact h c (by simp)
  show trim_start (trim_end s) = s
  rw [hte]
  unfold trim_start
  cases s with
  | nil => rfl
  | cons a s2 =>
    rw [List.dropWhile_cons, if_neg (show ¬(rust_is_whitespace a = true) by
      simp [h a (List.mem_cons_self _ _)])]

theorem ends_ws_append_right {x k : Str} (hk : k ≠ []) :
    ends_ws (x ++ k) = ends_ws k := by
  unfold ends_ws
  rw [List.getLast?_append]
  cases hl : k.getLast? with
  | none => exact absurd (List.getLast?_eq_none.mp hl) hk
  | some c => rfl

theorem splitOnP_pieces (q : Char → Bool) : ∀ (l : Str), ∀ p ∈ l.splitOnP q,
    ∀ a ∈ p, q a = false := by
  intro l
  induction l with
  | nil =>
    intro p hp a ha
    rw [List.splitOnP_nil] at hp
    simp only [List.mem_singleton] at hp
    subst hp
    simp at ha
  | cons c l2 ih =>
    intro p hp a ha
    rw [List.splitOnP_cons] at hp
    by_cases hc : q c = true
    · rw [if_pos hc] at hp
      rcases List.mem_cons.mp hp with rfl | hp2
      · simp at ha
      · exact ih p hp2 a ha
    · rw [if_neg hc] at hp
      obtain ⟨p0, rest, he⟩ : ∃ p0 rest, l2.splitOnP q = p0 :: rest := by
        cases hsp : l2.splitOnP q with
        | nil => exact absurd hsp (List.splitOnP_ne_nil q l2)
        | cons p0 rest => exact ⟨p0, rest, rfl⟩
      rw [he, List.modifyHead_cons] at hp
      rcases List.mem_cons.mp hp with rfl | hp2
      · rcases List.mem_cons.mp ha with rfl | ha2
        · simpa using hc
        · exact ih p0 (he ▸ List.mem_cons_self _ _) a ha2
      · exact ih p (he ▸ List.mem_cons_of_mem _ hp2) a ha

theorem splitOn_pieces_not_mem {x : Char} {l p : Str} (hp : p ∈ l.splitOn x) : x ∉ p := by
  intro hx
  have := splitOnP_pieces (fun a => a == x) l p hp x hx
  simp at this

theorem splitOn_not_mem {x : Char} {l : Str} (h : x ∉ l) : l.splitOn x = [l] :=
  List.splitOnP_eq_single _ _ (fun a ha hq =>
    h (by rwa [show a = x by simpa using hq] at ha))

theorem splitOn_pair {x : Char} {a b : Str} (ha : x ∉ a) (hb : x ∉ b) :
    (a ++ x :: b).splitOn x = [a, b] := by
  have hi : [x].intercalate [a, b] = a ++ x :: b := by
    rw [intercalate_cons₂, intercalate_singleton]
    simp
  rw [← hi]
  exact List.splitOn_intercalate [a, b] x
    (by
      intro l hl
      rcases List.mem_cons.mp hl with rfl | hl2
      · exact ha
      · simp only [List.mem_singleton] at hl2
        subst hl2
        exact hb)
    (by simp)

theorem hex_digit_upper_toNat {n : Nat} (hn : n < 16) :
    (hex_digit_upper n).toNat = if n < 10 then 0x30 + n else 0x37 + n := by
  unfold hex_digit_upper
  split_ifs with h <;> rw [char_toNat_ofNat_ascii (by omega)]

theorem pe_chars_ascii_not_in {S : Nat → Bool} {bs : List Nat} (hbs : ∀ b ∈ bs, b < 256)
    (hpct : S 0x25 = false) (hhex : ∀ n, n < 16 → S (hex_digit_upper n).toNat = false) :
    ∀ c ∈ percent_encode S bs, c.toNat < 0x80 ∧ S c.toNat = false := by
  intro c hc
  rcases mem_percent_encode hbs hc with rfl | ⟨n, hn, rfl⟩ | ⟨b, _, hlt, hS, rfl⟩
  · exact ⟨by decide, hpct⟩
  · refine ⟨?_, hhex n hn⟩
    rw [hex_digit_upper_toNat hn]
    split_ifs <;> omega
  · rw [char_toNat_ofNat_ascii hlt]
    exact ⟨hlt, hS⟩

theorem not_mem_percent_encode {S : Nat → Bool} {bs : List Nat} (hbs : ∀ b ∈ bs, b < 256)
    {ch : Char} (h1 : ch ≠ '%') (h2 : ∀ n, n < 16 → hex_digit_upper n ≠ ch)
    (h3 : S ch.toNat = true ∨ ch.toNat ∉ bs) :
    ch ∉ percent_encode S bs := by
  intro hc
  rcases mem_percent_encode hbs hc with rfl | ⟨n, hn, he⟩ | ⟨b, hb, hlt, hS, rfl⟩
  · exact h1 rfl
  · exact h2 n hn he.symm
  · rcases h3 with hS2 | hnb
    · rw [char_toNat_ofNat_ascii hlt, hS] at hS2
      cases hS2
    · exact hnb (by rwa [char_toNat_ofNat_ascii hlt])

theorem char_ascii_lower_eq_low {c d : Char} (hd : d.toNat < 0x61)
    (h : char_ascii_lower c = d) : c = d := by
  unfold char_ascii_lower at h
  split_ifs at h with hcase
  · exfalso
    have := congrArg Char.toNat h
    rw [char_toNat_ofNat_ascii (by omega)] at this
    omega
  · exact h

theorem pe_no_pct2e {S : Nat → Bool} (hS : S 0x2E = false) (bs : List Nat)
    (hbs : ∀ b ∈ bs, b < 256) (h25 : 0x25 ∉ bs) :
    ∀ r, (percent_encode S bs).map char_ascii_lower ≠ '%' :: '2' :: 'e' :: r := by
  intro r he
  cases bs with
  | nil => simp [percent_encode] at he
  | cons b bs2 =>
    have hb : b < 256 := hbs b (List.mem_cons_self _ _)
    have hpe : percent_encode S (b :: bs2) =
        (if S b || decide (0x80 ≤ b) then
          ['%', hex_digit_upper (b / 16), hex_digit_upper (b % 16)]
        else [Char.ofNat b]) ++ percent_encode S bs2 := by
      simp [percent_encode]
    rw [hpe] at he
    by_cases hesc : (S b || decide (0x80 ≤ b)) = true
    · rw [if_pos hesc] at he
      simp only [List.cons_append, List.map_cons, List.cons.injEq, List.nil_append] at he
      obtain ⟨_, h16, hmod, _⟩ := he
      have hkey : ∀ n, n < 16 →
          (char_ascii_lower (hex_digit_upper n) = '2' → n = 2) ∧
          (char_ascii_lower (hex_digit_upper n) = 'e' → n = 14) := by decide
      have hdiv : b / 16 = 2 := (hkey (b / 16) (by omega)).1 h16
      have hmd : b % 16 = 14 := (hkey (b % 16) (by omega)).2 hmod
      have hb46 : b = 0x2E := by omega
      rw [hb46, hS] at hesc
      simp at hesc
    · rw [if_neg hesc] at he
      simp only [Bool.or_eq_true, decide_eq_true_eq, not_or, not_le] at hesc
      simp only [List.cons_append, List.map_cons, List.cons.injEq, List.nil_append] at he
      have hc : Char.ofNat b = '%' := char_ascii_lower_eq_low (by decide) he.1
      have : b = 0x25 := by
        have := congrArg Char.toNat hc
        rwa [char_toNat_ofNat_ascii hesc.2] at this
      exact h25 (this ▸ List.mem_cons_self _ _)

theorem seg_not_dot (p : Str) (hdot : '.' ∉ p) (hpct : '%' ∉ p) :
    is_single_dot_segment (percent_encode PATH (str_bytes p)) = false ∧
    is_double_dot_segment (percent_encode PATH (str_bytes p)) = false := by
  have hdm : '.' ∉ percent_encode PATH (str_bytes p) :=
    not_mem_percent_encode (str_bytes_bound p) (by decide) (by decide)
      (Or.inr (char_not_mem_bytes (by decide) hdot))
  have hno : ∀ r, (percent_encode PATH (str_bytes p)).map char_ascii_lower
      ≠ '%' :: '2' :: 'e' :: r :=
    pe_no_pct2e (by decide) _ (str_bytes_bound p) (char_not_mem_bytes (by decide) hpct)
  have hhead : ∀ rest, (percent_encode PATH (str_bytes p)).map char_ascii_lower
      ≠ '.' :: rest := by
    intro rest he
    cases hp : percent_encode PATH (str_bytes p) with
    | nil => rw [hp] at he; simp at he
    | cons c e2 =>
      rw [hp] at he
      simp only [List.map_cons, List.cons.injEq] at he
      have : c = '.' := char_ascii_lower_eq_low (by decide) he.1
      exact hdm (hp ▸ (this ▸ List.mem_cons_self _ _))
  constructor
  · unfold is_single_dot_segment
    simp only [Bool.or_eq_false_iff, beq_eq_false_iff_ne, ne_eq]
    constructor
    · intro he
      exact hdm (he ▸ (by decide : '.' ∈ ".".data))
    · exact hno []
  · unfold is_double_dot_segment
    simp only [Bool.or_eq_false_iff, beq_eq_false_iff_ne, ne_eq]
    refine ⟨⟨⟨?_, ?_⟩, ?_⟩, ?_⟩
    · intro he
      exact hdm (he ▸ (by decide : '.' ∈ "..".data))
    · exact hhead "%2e".data
    · exact hno ['.']
    · exact hno "%2e".data

theorem process_no_dot : ∀ (segs : List Str) (acc : List Str),
    (∀ seg ∈ segs, is_single_dot_segment seg = false ∧ is_double_dot_segment seg = false) →
    process_path_segments acc segs = acc ++ segs := by
  intro segs
  induction segs with
  | nil =>
    intro acc _
    simp [process_path_segments]
  | cons s rest ih =>
    intro acc h
    obtain ⟨hs, hd⟩ := h s (List.mem_cons_self _ _)
    rw [process_path_segments,
      if_neg (show ¬(is_double_dot_segment s = true) by simp [hd]),
      if_neg (show ¬(is_single_dot_segment s = true) by simp [hs]),
      ih (acc ++ [s]) (fun seg hseg => h seg (List.mem_cons_of_mem _ hseg))]
    simp

theorem str_bytes_ne_nil {s : Str} (h : s ≠ []) : str_bytes s ≠ [] := by
  cases s with
  | nil => exact absurd rfl h
  | cons c rest =>
    show utf8_bytes_char c ++ str_bytes rest ≠ []
    intro he
    rcases List.append_eq_nil.mp he with ⟨h1, _⟩
    simp only [utf8_bytes_char] at h1
    split_ifs at h1 <;> simp at h1

theorem percent_encode_ne_nil {S : Nat → Bool} {bs : List Nat} (h : bs ≠ []) :
    percent_encode S bs ≠ [] := by
  cases bs with
  | nil => exact absurd rfl h
  | cons b bs2 =>
    have hpe : percent_encode S (b :: bs2) =
        (if S b || decide (0x80 ≤ b) then
          ['%', hex_digit_upper (b / 16), hex_digit_upper (b % 16)]
        else [Char.ofNat b]) ++ percent_encode S bs2 := by
      simp [percent_encode]
    rw [hpe]
    intro he
    rcases List.append_eq_nil.mp he with ⟨h1, _⟩
    split_ifs at h1 <;> simp at h1

theorem mem_intercalate_of_piece {sep : Char} : ∀ {L : List Str} {l : Str}, l ∈ L →
    ∀ {c : Char}, c ∈ l → c ∈ [sep].intercalate L := by
  intro L
  induction L with
  | nil => intro l hl; simp at hl
  | cons x xs ih =>
    intro l hl c hc
    cases xs with
    | nil =>
      simp only [List.mem_singleton] at hl
      subst hl
      rwa [intercalate_singleton]
    | cons y ys =>
      rw [intercalate_cons₂]
      rcases List.mem_cons.mp hl with rfl | hl2
      · simp [hc]
      · simp only [List.mem_append]
        exact Or.inr (ih hl2 hc)

theorem map_eq_self_of {α : Type} {f : α → α} : ∀ {l : List α}, (∀ x ∈ l, f x = x) →
    l.map f = l := by
  intro l
  induction l with
  | nil => intro _; rfl
  | cons x xs ih =>
    intro h
    rw [List.map_cons, h x (List.mem_cons_self _ _),
      ih (fun y hy => h y (List.mem_cons_of_mem _ hy))]

theorem pe_slash : percent_encode PATH (str_bytes ['/']) = ['/'] := by decide

theorem pe_bytes_intercalate : ∀ (L : List Str),
    percent_encode PATH (str_bytes (['/'].intercalate L)) =
      ['/'].intercalate (L.map fun p => percent_encode PATH (str_bytes p)) := by
  intro L
  induction L with
  | nil => rfl
  | cons x xs ih =>
    cases xs with
    | nil => rw [intercalate_singleton, List.map_cons, List.map_nil, intercalate_singleton]
    | cons y ys =>
      simp only [intercalate_cons₂, str_bytes_append, percent_encode_append, pe_slash,
        List.map_cons, ih]

theorem utf8_bytes_char_head (c : Char) :
    (c.toNat < 0x80 ∧ utf8_bytes_char c = [c.toNat]) ∨
    (0x80 ≤ c.toNat ∧ ∃ b1 tb, utf8_bytes_char c = b1 :: tb ∧ 0x80 ≤ b1 ∧
      ∀ b ∈ tb, 0x80 ≤ b) := by
  by_cases h1 : c.toNat < 0x80
  · refine Or.inl ⟨h1, ?_⟩
    simp only [utf8_bytes_char]
    rw [if_pos h1]
  · refine Or.inr ⟨by omega, ?_⟩
    by_cases h2 : c.toNat < 0x800
    · refine ⟨0xC0 + c.toNat / 0x40, [0x80 + c.toNat % 0x40], ?_, by omega,
        by intro b hb; simp at hb; omega⟩
      simp only [utf8_bytes_char]
      rw [if_neg h1, if_pos h2]
    · by_cases h3 : c.toNat < 0x10000
      · refine ⟨0xE0 + c.toNat / 0x1000,
          [0x80 + c.toNat / 0x40 % 0x40, 0x80 + c.toNat % 0x40], ?_, by omega,
          by intro b hb; simp at hb; omega⟩
        simp only [utf8_bytes_char]
        rw [if_neg h1, if_neg h2, if_pos h3]
      · refine ⟨0xF0 + c.toNat / 0x40000,
          [0x80 + c.toNat / 0x1000 % 0x40, 0x80 + c.toNat / 0x40 % 0x40,
            0x80 + c.toNat % 0x40], ?_, by omega,
          by intro b hb; simp at hb; omega⟩
        simp only [utf8_bytes_char]
        rw [if_neg h1, if_neg h2, if_neg h3]

theorem pe_head_ne_slash {facet : Str} (hf : facet.head? ≠ some '/') :
    (percent_encode PATH (str_bytes facet)).head? ≠ some '/' := by
  cases facet with
  | nil =>
    intro h
    simp [str_bytes, percent_encode] at h
  | cons c rest =>
    have hc : c ≠ '/' := fun he => hf (by rw [he]; rfl)
    have hsb : str_bytes (c :: rest) = utf8_bytes_char c ++ str_bytes rest := rfl
    rcases utf8_bytes_char_head c with ⟨hlt, htb⟩ | ⟨_, b1, tb, htb, hb1, _⟩
    · rw [hsb, htb]
      have : percent_encode PATH ([c.toNat] ++ str_bytes rest) =
          (if PATH c.toNat || decide (0x80 ≤ c.toNat) then
            ['%', hex_digit_upper (c.toNat / 16), hex_digit_upper (c.toNat % 16)]
          else [Char.ofNat c.toNat]) ++ percent_encode PATH (str_bytes rest) := by
        simp [percent_encode]
      rw [this]
      split_ifs with he
      · simp only [List.cons_append, List.head?_cons]
        decide
      · simp only [List.cons_append, List.head?_cons, ne_eq, Option.some.injEq]
        rw [Char.ofNat_toNat]
        exact hc
    · rw [hsb, htb]
      have : percent_encode PATH ((b1 :: tb) ++ str_bytes rest) =
          (if PATH b1 || decide (0x80 ≤ b1) then
            ['%', hex_digit_upper (b1 / 16), hex_digit_upper (b1 % 16)]
          else [Char.ofNat b1]) ++ percent_encode PATH (tb ++ str_bytes rest) := by
        simp [percent_encode]
      rw [this, if_pos (by simp only [Bool.or_eq_true, decide_eq_true_eq]; omega)]
      simp only [List.cons_append, List.head?_cons]
      decide

theorem PATH_hex_false : ∀ n, n < 16 → PATH (hex_digit_upper n).toNat = false := by decide

theorem QUERY_hex_false : ∀ n, n < 16 → QUERY (hex_digit_upper n).toNat = false := by decide

theorem FRAGMENT_hex_false : ∀ n, n < 16 → FRAGMENT (hex_digit_upper n).toNat = false := by
  decide

theorem url_resolve_path_encode (facet : Str)
    (hslash : facet.head? ≠ some '/')
    (hdot : '.' ∉ facet) (hpct : '%' ∉ facet) :
    url_resolve_path (percent_encode PATH (str_bytes facet)) =
      '/' :: percent_encode PATH (str_bytes facet) := by
  by_cases hnil : facet = []
  · subst hnil
    rfl
  · have hene : percent_encode PATH (str_bytes facet) ≠ [] :=
      percent_encode_ne_nil (str_bytes_ne_nil hnil)
    have hhead := pe_head_ne_slash hslash
    have hresolved : url_resolve_path (percent_encode PATH (str_bytes facet)) =
        '/' :: ['/'].intercalate (process_path_segments []
          (((percent_encode PATH (str_bytes facet)).splitOn '/').map
            (url_component_encode PATH))) := by
      unfold url_resolve_path
      rw [if_neg (show ¬(List.isEmpty (percent_encode PATH (str_bytes facet)) = true) by
          simpa [List.isEmpty_iff] using hene),
        if_neg (show ¬(((percent_encode PATH (str_bytes facet)).head? == some '/') = true) by
          simpa using hhead)]
      rfl
    have hface : ['/'].intercalate (facet.splitOn '/') = facet :=
      List.intercalate_splitOn facet '/'
    have hp_free : ∀ p ∈ facet.splitOn '/', '/' ∉ p := fun p hp =>
      splitOn_pieces_not_mem hp
    have hp_dot : ∀ p ∈ facet.splitOn '/', '.' ∉ p := fun p hp hc =>
      hdot (hface ▸ mem_intercalate_of_piece hp hc)
    have hp_pct : ∀ p ∈ facet.splitOn '/', '%' ∉ p := fun p hp hc =>
      hpct (hface ▸ mem_intercalate_of_piece hp hc)
    have hEint : percent_encode PATH (str_bytes facet) =
        ['/'].intercalate ((facet.splitOn '/').map
          fun p => percent_encode PATH (str_bytes p)) := by
      conv_lhs => rw [← hface]
      exact pe_bytes_intercalate _
    have hsplit : (percent_encode PATH (str_bytes facet)).splitOn '/' =
        (facet.splitOn '/').map fun p => percent_encode PATH (str_bytes p) := by
      rw [hEint]
      apply List.splitOn_intercalate
      · intro l hl
        obtain ⟨p, hp, rfl⟩ := List.mem_map.mp hl
        exact not_mem_percent_encode (str_bytes_bound p) (by decide) (by decide)
          (Or.inr (char_not_mem_bytes (by decide) (hp_free p hp)))
      · intro h
        exact List.splitOnP_ne_nil (fun a => a == '/') facet (List.map_eq_nil.mp h)
    have hid : ((percent_encode PATH (str_bytes facet)).splitOn '/').map
        (url_component_encode PATH) = (percent_encode PATH (str_bytes facet)).splitOn '/' := by
      apply map_eq_self_of
      intro seg hseg
      rw [hsplit] at hseg
      obtain ⟨p, hp, rfl⟩ := List.mem_map.mp hseg
      exact percent_encode_id _ (pe_chars_ascii_not_in (str_bytes_bound p)
        (by decide) PATH_hex_false)
    have hproc : process_path_segments []
        ((percent_encode PATH (str_bytes facet)).splitOn '/') =
        (percent_encode PATH (str_bytes facet)).splitOn '/' := by
      rw [process_no_dot _ _ ?hsegs]
      · rfl
      case hsegs =>
        intro seg hseg
        rw [hsplit] at hseg
        obtain ⟨p, hp, rfl⟩ := List.mem_map.mp hseg
        exact seg_not_dot p (hp_dot p hp) (hp_pct p hp)
    rw [hresolved, hid, hproc, List.intercalate_splitOn]

theorem encode_shape (t : Tag) :
    ∃ tail, Tag.encode t = percent_encode PATH (str_bytes t.facet) ++ tail ∧
      (tail = [] ∨ tail.head? = some '?' ∨ tail.head? = some '#') := by
  unfold Tag.encode
  by_cases hp : t.props.isEmpty = true
  · rw [if_pos hp]
    by_cases hl : (!t.label.isEmpty) = true
    · rw [if_pos hl]
      exact ⟨'#' :: percent_encode FRAGMENT (str_bytes t.label), rfl, Or.inr (Or.inr rfl)⟩
    · rw [if_neg hl]
      exact ⟨[], by simp, Or.inl rfl⟩
  · rw [if_neg hp]
    by_cases hl : (!t.label.isEmpty) = true
    · rw [if_pos hl]
      exact ⟨('?' :: ['&'].intercalate (t.props.map encode_prop)) ++
        '#' :: percent_encode FRAGMENT (str_bytes t.label),
        List.append_assoc _ _ _, Or.inr (Or.inl rfl)⟩
    · rw [if_neg hl]
      exact ⟨'?' :: ['&'].intercalate (t.props.map encode_prop), rfl, Or.inr (Or.inl rfl)⟩

theorem scheme_split_encode (t : Tag) (hcol : ':' ∉ t.facet) :
    scheme_split (Tag.encode t) = none := by
  obtain ⟨tail, henc, htail⟩ := encode_shape t
  have htail_z : ∀ z, tail.head? = some z → z ≠ ':' ∧ is_scheme_char z = false := by
    intro z hz
    rcases htail with rfl | h | h
    · simp at hz
    · have hz2 : z = '?' := by
        rw [h] at hz
        exact (Option.some.inj hz).symm
      subst hz2
      exact ⟨by decide, by decide⟩
    · have hz2 : z = '#' := by
        rw [h] at hz
        exact (Option.some.inj hz).symm
      subst hz2
      exact ⟨by decide, by decide⟩
  rw [henc]
  cases hfac : t.facet with
  | nil =>
    rw [show percent_encode PATH (str_bytes ([] : Str)) = [] from rfl, List.nil_append]
    cases htl : tail with
    | nil => rfl
    | cons z zs =>
      obtain ⟨hne, hns⟩ := htail_z z (by rw [htl]; rfl)
      show scheme_split (z :: zs) = none
      rw [scheme_split, if_neg (show ¬(is_ascii_alpha z = true) by
        intro ha
        rw [show is_scheme_char z = true by simp [is_scheme_char, ha]] at hns
        cases hns)]
  | cons c rest =>
    have hcr : ':' ∉ (c :: rest : Str) := hfac ▸ hcol
    have hrest : ':' ∉ rest := fun hm => hcr (List.mem_cons_of_mem _ hm)
    have hsb : str_bytes (c :: rest) = utf8_bytes_char c ++ str_bytes rest := rfl
    have hcolR : ':' ∉ percent_encode PATH (str_bytes rest) :=
      not_mem_percent_encode (str_bytes_bound rest) (by decide) (by decide)
        (Or.inr (char_not_mem_bytes (by decide) hrest))
    rcases utf8_bytes_char_head c with ⟨hlt, htb⟩ | ⟨hge, b1, tb, htb, hb1, htb2⟩
    · rw [hsb, htb]
      have hpe : percent_encode PATH ([c.toNat] ++ str_bytes rest) =
          (if PATH c.toNat || decide (0x80 ≤ c.toNat) then
            ['%', hex_digit_upper (c.toNat / 16), hex_digit_upper (c.toNat % 16)]
          else [Char.ofNat c.toNat]) ++ percent_encode PATH (str_bytes rest) := by
        simp [percent_encode]
      rw [hpe]
      by_cases hesc : (PATH c.toNat || decide (0x80 ≤ c.toNat)) = true
      · rw [if_pos hesc]
        simp only [List.cons_append, List.nil_append, List.append_assoc]
        rw [scheme_split, if_neg (show ¬(is_ascii_alpha '%' = true) by decide)]
      · rw [if_neg hesc]
        simp only [List.cons_append, List.nil_append, List.append_assoc]
        rw [Char.ofNat_toNat, scheme_split]
        by_cases ha : is_ascii_alpha c = true
        · rw [if_pos ha]
          exact scheme_split_aux_stop _ _ tail hcolR htail_z
        · rw [if_neg ha]
    · rw [hsb, htb]
      have hcolT : ':' ∉ percent_encode PATH (tb ++ str_bytes rest) := by
        refine not_mem_percent_encode ?_ (by decide) (by decide) (Or.inr ?_)
        · intro b hb
          rcases List.mem_append.mp hb with hbt | hbr
          · have hmem : b ∈ str_bytes (c :: rest) := by
              rw [hsb, htb]
              exact List.mem_append.mpr (Or.inl (List.mem_cons_of_mem _ hbt))
            exact str_bytes_bound (c :: rest) b hmem
          · exact str_bytes_bound rest b hbr
        · intro hmem
          rcases List.mem_append.mp hmem with hbt | hbr
          · have h1 := htb2 _ hbt
            have h58 : (':').toNat = 58 := rfl
            omega
          · exact char_not_mem_bytes (by decide) hrest hbr
      have hpe : percent_encode PATH ((b1 :: tb) ++ str_bytes rest) =
          (if PATH b1 || decide (0x80 ≤ b1) then
            ['%', hex_digit_upper (b1 / 16), hex_digit_upper (b1 % 16)]
          else [Char.ofNat b1]) ++ percent_encode PATH (tb ++ str_bytes rest) := by
        simp [percent_encode]
      rw [hpe, if_pos (by simp only [Bool.or_eq_true, decide_eq_true_eq]; omega)]
      simp only [List.cons_append, List.nil_append, List.append_assoc]
      rw [scheme_split, if_neg (show ¬(is_ascii_alpha '%' = true) by decide)]

theorem eq_not_mem_peQ {s : Str} (h : '=' ∉ s) :
    '=' ∉ percent_encode QUERY (str_bytes s) :=
  not_mem_percent_encode (str_bytes_bound s) (by decide) (by decide)
    (Or.inr (char_not_mem_bytes (by decide) h))

theorem amp_not_mem_peQ {s : Str} (h : '&' ∉ s) :
    '&' ∉ percent_encode QUERY (str_bytes s) :=
  not_mem_percent_encode (str_bytes_bound s) (by decide) (by decide)
    (Or.inr (char_not_mem_bytes (by decide) h))

theorem hash_not_mem_peQ (s : Str) : '#' ∉ percent_encode QUERY (str_bytes s) :=
  not_mem_percent_encode (str_bytes_bound s) (by decide) (by decide) (Or.inl (by decide))

theorem hash_not_mem_peP (s : Str) : '#' ∉ percent_encode PATH (str_bytes s) :=
  not_mem_percent_encode (str_bytes_bound s) (by decide) (by decide) (Or.inl (by decide))

theorem qmark_not_mem_peP (s : Str) : '?' ∉ percent_encode PATH (str_bytes s) :=
  not_mem_percent_encode (str_bytes_bound s) (by decide) (by decide) (Or.inl (by decide))

theorem decode_keyval_encode (p : Prop') (hkey : Prop'.is_valid_key p.key = true)
    (hpk : '%' ∉ p.key) (hpv : '%' ∉ p.val) :
    decode_keyval (percent_encode QUERY (str_bytes p.key))
      (percent_encode QUERY (str_bytes p.val)) = some p := by
  unfold decode_keyval
  rw [field_decode_encode QUERY p.key hpk]
  show (if !Prop'.is_valid_key p.key then none else
    match utf8_decode (percent_decode (percent_encode QUERY (str_bytes p.val))) with
    | none => none
    | some val => some ⟨p.key, val⟩) = some p
  rw [if_neg (show ¬((!Prop'.is_valid_key p.key) = true) by simp [hkey]),
    field_decode_encode QUERY p.val hpv]

theorem decode_one_prop_encode (p : Prop') (hkey : Prop'.is_valid_key p.key = true)
    (hpk : '%' ∉ p.key) (hpv : '%' ∉ p.val) (hek : '=' ∉ p.key) (hev : '=' ∉ p.val) :
    decode_one_prop (encode_prop p) = some p := by
  have hsplit : (encode_prop p).splitOn '=' =
      [percent_encode QUERY (str_bytes p.key), percent_encode QUERY (str_bytes p.val)] := by
    show (percent_encode QUERY (str_bytes p.key) ++
      '=' :: percent_encode QUERY (str_bytes p.val)).splitOn '=' = _
    exact splitOn_pair (eq_not_mem_peQ hek) (eq_not_mem_peQ hev)
  unfold decode_one_prop
  rw [hsplit]
  exact decode_keyval_encode p hkey hpk hpv

theorem encode_prop_ne_nil (p : Prop') : encode_prop p ≠ [] := by
  show percent_encode QUERY (str_bytes p.key) ++
    '=' :: percent_encode QUERY (str_bytes p.val) ≠ []
  simp

theorem intercalate_head_ne_nil {sep : Char} {x : Str} {rest : List Str} (hx : x ≠ []) :
    [sep].intercalate (x :: rest) ≠ [] := by
  cases rest with
  | nil =>
    rw [intercalate_singleton]
    exact hx
  | cons y ys =>
    rw [intercalate_cons₂]
    intro h
    rcases List.append_eq_nil.mp h with ⟨h1, _⟩
    rcases List.append_eq_nil.mp h1 with ⟨h2, _⟩
    exact hx h2

theorem amp_not_mem_encode_prop {p : Prop'} (hk : '&' ∉ p.key) (hv : '&' ∉ p.val) :
    '&' ∉ encode_prop p := by
  show '&' ∉ percent_encode QUERY (str_bytes p.key) ++
    '=' :: percent_encode QUERY (str_bytes p.val)
  intro h
  rcases List.mem_append.mp h with h1 | h2
  · exact amp_not_mem_peQ hk h1
  · rcases List.mem_cons.mp h2 with he | h3
    · exact absurd he (by decide)
    · exact amp_not_mem_peQ hv h3

theorem hash_not_mem_encode_prop (p : Prop') : '#' ∉ encode_prop p := by
  show '#' ∉ percent_encode QUERY (str_bytes p.key) ++
    '=' :: percent_encode QUERY (str_bytes p.val)
  intro h
  rcases List.mem_append.mp h with h1 | h2
  · exact hash_not_mem_peQ p.key h1
  · rcases List.mem_cons.mp h2 with he | h3
    · exact absurd he (by decide)
    · exact hash_not_mem_peQ p.val h3

theorem decode_query_props_encode : ∀ (props : List Prop'),
    (∀ p ∈ props, Prop'.is_valid_key p.key = true ∧ '%' ∉ p.key ∧ '%' ∉ p.val ∧
      '=' ∉ p.key ∧ '=' ∉ p.val) →
    decode_query_props (props.map encode_prop) = some props := by
  intro props
  induction props with
  | nil => intro _; rfl
  | cons p rest ih =>
    intro h
    obtain ⟨h1, h2, h3, h4, h5⟩ := h p (List.mem_cons_self _ _)
    show (match decode_one_prop (encode_prop p) with
      | none => none
      | some q => (decode_query_props (rest.map encode_prop)).map (fun ps => q :: ps)) =
      some (p :: rest)
    rw [decode_one_prop_encode p h1 h2 h3 h4 h5]
    show (decode_query_props (rest.map encode_prop)).map (fun ps => p :: ps) =
      some (p :: rest)
    rw [ih (fun q hq => h q (List.mem_cons_of_mem _ hq))]
    rfl

theorem percent_decode_nil : percent_decode [] = [] := rfl

theorem utf8_decode_nil : utf8_decode [] = some [] := rfl

theorem is_valid_label_nil : is_valid_label [] = true := rfl

theorem url_parse_no_scheme {s : Str} (hs1 : url_strip_c0_space s = s)
    (hs2 : url_remove_tab_newline s = s) (hsch : scheme_split s = none)
    (hhead : s.head? ≠ some '/') :
    url_parse s = some (url_parse_relative s) := by
  unfold url_parse
  rw [hs1, hs2]
  unfold url_parse_cleaned
  rw [hsch]
  cases s with
  | nil => rfl
  | cons c s1 =>
    have hc : c ≠ '/' := fun he => hhead (by rw [he]; rfl)
    cases s1 with
    | nil =>
      show (match ([c] : Str) with
        | '/' :: '/' :: rest2 => url_parse_authority rest2
        | _ => some (url_parse_relative [c])) = some (url_parse_relative [c])
      split
      · rename_i rest2 heq
        simp at heq
      · rfl
    | cons c2 s2 =>
      show (match (c :: c2 :: s2 : Str) with
        | '/' :: '/' :: rest2 => url_parse_authority rest2
        | _ => some (url_parse_relative (c :: c2 :: s2))) =
        some (url_parse_relative (c :: c2 :: s2))
      split
      · rename_i rest2 heq
        simp only [List.cons.injEq] at heq
        exact absurd heq.1 hc
      · rfl

theorem head?_append_left {α : Type} {l l' : List α} (h : l ≠ []) :
    (l ++ l').head? = l.head? := by
  cases l with
  | nil => exact absurd rfl h
  | cons c r => rfl

theorem encode_head_ne_slash (t : Tag) (hfd : t.facet.head? ≠ some '/') :
    (Tag.encode t).head? ≠ some '/' := by
  obtain ⟨tail, henc, htail⟩ := encode_shape t
  rw [henc]
  by_cases hfc : t.facet = []
  · rw [show percent_encode PATH (str_bytes t.facet) = [] by rw [hfc]; rfl,
      List.nil_append]
    rcases htail with rfl | h | h
    · simp
    · rw [h]
      decide
    · rw [h]
      decide
  · rw [head?_append_left (percent_encode_ne_nil (str_bytes_ne_nil hfc))]
    exact pe_head_ne_slash hfd

theorem tag_decode_checks (e : Str) (htrim : rust_trim e = e) (hne : e ≠ [])
    (hhead : e.head? ≠ some '/') {P : UrlParts} (hparse : url_parse e = some P) :
    Tag.decode_str e =
      (match utf8_decode (percent_decode (P.fragment.getD [])) with
      | none => DecodeResult.parseError
      | some label =>
        if !is_valid_label label then DecodeResult.parseError
        else if P.path.isEmpty then DecodeResult.panicked
        else
          match utf8_decode (percent_decode (P.path.drop 1)) with
          | none => DecodeResult.parseError
          | some facet =>
            if !is_valid_facet facet then DecodeResult.parseError
            else if facet_has_invalid_date_like_suffix facet then DecodeResult.parseError
            else
              match (if (P.query.getD []).isEmpty then some []
                else decode_query_props ((P.query.getD []).splitOn '&')) with
              | none => DecodeResult.parseError
              | some props =>
                if !(Tag.mk label facet props).is_valid then DecodeResult.invalidTag
                else DecodeResult.ok (Tag.mk label facet props)) := by
  unfold Tag.decode_str
  rw [if_neg (show ¬((rust_trim e != e) = true) by rw [htrim]; simp),
    if_neg (show ¬(List.isEmpty e = true) by simpa [List.isEmpty_iff] using hne),
    if_neg (show ¬((e.head? == some '/') = true) by simpa using hhead),
    hparse]

/-- C1 (amended): the round trip `decode_str (encode t) = Ok t` holds for
every valid tag with valid label, facet and property keys whose fields
avoid the characters that the encoder leaves unescaped but the decoder
re-interprets: no `%` in any field (the encoder never escapes `%`), no
`=` or `&` in property keys and values (unescaped by the query set), no
`:` and no `.` in the facet (a facet that looks like a URL scheme or
contains dot segments is reshaped by the URL parser), and no
whitespace-preceded date-like suffix (rejected by the decoder). -/
theorem C1_amended (t : Tag)
    (hvalid : t.is_valid = true)
    (hlab : is_valid_label t.label = true)
    (hfac : is_valid_facet t.facet = true)
    (hkeys : ∀ p ∈ t.props, Prop'.is_valid_key p.key = true)
    (hpctL : '%' ∉ t.label) (hpctF : '%' ∉ t.facet)
    (hpctP : ∀ p ∈ t.props, '%' ∉ p.key ∧ '%' ∉ p.val)
    (hsepP : ∀ p ∈ t.props, '=' ∉ p.key ∧ '=' ∉ p.val ∧ '&' ∉ p.key ∧ '&' ∉ p.val)
    (hcolF : ':' ∉ t.facet) (hdotF : '.' ∉ t.facet)
    (hsuf : facet_has_invalid_date_like_suffix t.facet = false) :
    Tag.decode_str (Tag.encode t) = DecodeResult.ok t := by
  have hgood := encode_all_good t
  have hgt : ∀ c ∈ Tag.encode t, 0x20 < c.toNat := by
    intro c hc
    have := hgood c hc
    simp only [token_char_good, Bool.and_eq_true, decide_eq_true_eq] at this
    exact this.1
  have hnws : ∀ c ∈ Tag.encode t, rust_is_whitespace c = false :=
    fun c hc => token_char_good_not_ws (hgood c hc)
  have htrim : rust_trim (Tag.encode t) = Tag.encode t := rust_trim_id hnws
  have hfac2 := hfac
  simp only [is_valid_facet, Bool.and_eq_true, bne_iff_ne, ne_eq] at hfac2
  have hscheme := scheme_split_encode t hcolF
  have hstrip : url_strip_c0_space (Tag.encode t) = Tag.encode t :=
    url_strip_c0_space_id hgt
  have hremove : url_remove_tab_newline (Tag.encode t) = Tag.encode t :=
    url_remove_tab_newline_id hgt
  have hhead : (Tag.encode t).head? ≠ some '/' := encode_head_ne_slash t hfac2.2
  have hfacRT := field_decode_encode PATH t.facet hpctF
  have hlabRT := field_decode_encode FRAGMENT t.label hpctL
  have hresolve := url_resolve_path_encode t.facet hfac2.2 hdotF hpctF
  have hfragid : url_component_encode FRAGMENT (percent_encode FRAGMENT (str_bytes t.label))
      = percent_encode FRAGMENT (str_bytes t.label) :=
    percent_encode_id _ (pe_chars_ascii_not_in (str_bytes_bound t.label)
      (by decide) FRAGMENT_hex_false)
  by_cases hpe : t.props.isEmpty = true
  · have hp0 : t.props = [] := List.isEmpty_iff.mp hpe
    by_cases hle : t.label.isEmpty = true
    · -- neither label nor props: the token is the encoded facet alone
      have hl0 : t.label = [] := List.isEmpty_iff.mp hle
      have henc : Tag.encode t = percent_encode PATH (str_bytes t.facet) := by
        unfold Tag.encode
        rw [if_pos hpe, if_neg (show ¬((!t.label.isEmpty) = true) by simp [hle])]
      have hfacne : t.facet ≠ [] := by
        have hv := hvalid
        unfold Tag.is_valid Tag.has_label Tag.has_facet Tag.has_props at hv
        rw [hle, hpe] at hv
        simp only [Bool.not_true, Bool.false_or, Bool.and_eq_true, Bool.not_eq_true'] at hv
        exact fun he => absurd (he ▸ hv.1) (by decide)
      have hene : Tag.encode t ≠ [] := by
        rw [henc]
        exact percent_encode_ne_nil (str_bytes_ne_nil hfacne)
      have hrel : url_parse_relative (Tag.encode t) =
          ⟨'/' :: percent_encode PATH (str_bytes t.facet), none, none⟩ := by
        rw [henc]
        unfold url_parse_relative
        rw [split_first_not_mem (hash_not_mem_peP t.facet)]
        show (match split_first '?' (percent_encode PATH (str_bytes t.facet)) with
          | (rawPath, query) =>
            UrlParts.mk (url_resolve_path rawPath) (query.map (url_component_encode QUERY))
              ((none : Option Str).map (url_component_encode FRAGMENT))) = _
        rw [split_first_not_mem (qmark_not_mem_peP t.facet)]
        show UrlParts.mk (url_resolve_path (percent_encode PATH (str_bytes t.facet)))
          ((none : Option Str).map (url_component_encode QUERY))
          ((none : Option Str).map (url_component_encode FRAGMENT)) = _
        rw [hresolve]
        rfl
      have hparse : url_parse (Tag.encode t) =
          some ⟨'/' :: percent_encode PATH (str_bytes t.facet), none, none⟩ := by
        rw [url_parse_no_scheme hstrip hremove hscheme hhead, hrel]
      have hteq : (⟨[], t.facet, []⟩ : Tag) = t := by rw [← hl0, ← hp0]
      rw [tag_decode_checks _ htrim hene hhead hparse]
      simp only [Option.getD_none, percent_decode_nil, utf8_decode_nil, is_valid_label_nil,
        Bool.not_true, Bool.false_eq_true, if_false, List.isEmpty_cons, List.drop_succ_cons,
        List.drop_zero, hfacRT, hfac, hsuf, List.isEmpty_nil, if_true, hteq, hvalid]
    · -- label only (no properties)
      have hlne : t.label ≠ [] := by
        intro he
        rw [he] at hle
        exact hle rfl
      have henc : Tag.encode t = percent_encode PATH (str_bytes t.facet) ++
          '#' :: percent_encode FRAGMENT (str_bytes t.label) := by
        unfold Tag.encode
        rw [if_pos hpe, if_pos (show (!t.label.isEmpty) = true by
          simp [List.isEmpty_iff, hlne])]
      have hene : Tag.encode t ≠ [] := by
        rw [henc]
        simp
      have hrel : url_parse_relative (Tag.encode t) =
          ⟨'/' :: percent_encode PATH (str_bytes t.facet), none,
            some (percent_encode FRAGMENT (str_bytes t.label))⟩ := by
        rw [henc]
        unfold url_parse_relative
        rw [split_first_append _ (hash_not_mem_peP t.facet)]
        show (match split_first '?' (percent_encode PATH (str_bytes t.facet)) with
          | (rawPath, query) =>
            UrlParts.mk (url_resolve_path rawPath) (query.map (url_component_encode QUERY))
              ((some (percent_encode FRAGMENT (str_bytes t.label))).map
                (url_component_encode FRAGMENT))) = _
        rw [split_first_not_mem (qmark_not_mem_peP t.facet)]
        show UrlParts.mk (url_resolve_path (percent_encode PATH (str_bytes t.facet)))
          ((none : Option Str).map (url_component_encode QUERY))
          ((some (percent_encode FRAGMENT (str_bytes t.label))).map
            (url_component_encode FRAGMENT)) = _
        rw [hresolve]
        simp only [Option.map_none', Option.map_some', hfragid]
      have hparse : url_parse (Tag.encode t) =
          some ⟨'/' :: percent_encode PATH (str_bytes t.facet), none,
            some (percent_encode FRAGMENT (str_bytes t.label))⟩ := by
        rw [url_parse_no_scheme hstrip hremove hscheme hhead, hrel]
      have hteq : (⟨t.label, t.facet, []⟩ : Tag) = t := by rw [← hp0]
      rw [tag_decode_checks _ htrim hene hhead hparse]
      simp only [Option.getD_some, Option.getD_none, hlabRT, hlab, Bool.not_true,
        Bool.false_eq_true, if_false, List.isEmpty_cons, List.drop_succ_cons,
        List.drop_zero, hfacRT, hfac, hsuf, List.isEmpty_nil, if_true, hteq, hvalid]
  · -- at least one property
    have hPne : t.props ≠ [] := by
      intro he
      rw [he] at hpe
      exact hpe rfl
    have hePne : ['&'].intercalate (t.props.map encode_prop) ≠ [] := by
      cases hps : t.props with
      | nil => exact absurd hps hPne
      | cons p0 pr =>
        show ['&'].intercalate (encode_prop p0 :: pr.map encode_prop) ≠ []
        exact intercalate_head_ne_nil (encode_prop_ne_nil p0)
    have hPhash : '#' ∉ ['&'].intercalate (t.props.map encode_prop) := by
      intro hm
      rcases mem_intercalate_sep hm with he | ⟨l, hl, hcl⟩
      · exact absurd he (by decide)
      · obtain ⟨p, hp, rfl⟩ := List.mem_map.mp hl
        exact hash_not_mem_encode_prop p hcl
    have hsplitQ : (['&'].intercalate (t.props.map encode_prop)).splitOn '&' =
        t.props.map encode_prop := by
      apply List.splitOn_intercalate
      · intro l hl
        obtain ⟨p, hp, rfl⟩ := List.mem_map.mp hl
        exact amp_not_mem_encode_prop (hsepP p hp).2.2.1 (hsepP p hp).2.2.2
      · exact fun h => hPne (List.map_eq_nil.mp h)
    have hdq : decode_query_props (t.props.map encode_prop) = some t.props :=
      decode_query_props_encode t.props (fun p hp =>
        ⟨hkeys p hp, (hpctP p hp).1, (hpctP p hp).2, (hsepP p hp).1, (hsepP p hp).2.1⟩)
    have hqid : url_component_encode QUERY (['&'].intercalate (t.props.map encode_prop))
        = ['&'].intercalate (t.props.map encode_prop) := by
      apply percent_encode_id
      intro c hc
      rcases mem_intercalate_sep hc with rfl | ⟨l, hl, hcl⟩
      · exact ⟨by decide, by decide⟩
      · obtain ⟨p, hp, rfl⟩ := List.mem_map.mp hl
        rcases List.mem_append.mp hcl with h1 | h2
        · exact pe_chars_ascii_not_in (str_bytes_bound p.key) (by decide) QUERY_hex_false
            c h1
        · rcases List.mem_cons.mp h2 with rfl | h3
          · exact ⟨by decide, by decide⟩
          · exact pe_chars_ascii_not_in (str_bytes_bound p.val) (by decide) QUERY_hex_false
              c h3
    have hqisE : List.isEmpty (['&'].intercalate (t.props.map encode_prop)) = false := by
      simpa [List.isEmpty_iff] using hePne
    by_cases hle : t.label.isEmpty = true
    · -- properties but no label
      have hl0 : t.label = [] := List.isEmpty_iff.mp hle
      have henc : Tag.encode t = percent_encode PATH (str_bytes t.facet) ++
          '?' :: ['&'].intercalate (t.props.map encode_prop) := by
        unfold Tag.encode
        rw [if_neg hpe, if_neg (show ¬((!t.label.isEmpty) = true) by simp [hle])]
      have hene : Tag.encode t ≠ [] := by
        rw [henc]
        simp
      have hrel : url_parse_relative (Tag.encode t) =
          ⟨'/' :: percent_encode PATH (str_bytes t.facet),
            some (['&'].intercalate (t.props.map encode_prop)), none⟩ := by
        rw [henc]
        unfold url_parse_relative
        rw [split_first_not_mem (show '#' ∉ percent_encode PATH (str_bytes t.facet) ++
            '?' :: ['&'].intercalate (t.props.map encode_prop) by
          intro hm
          rcases List.mem_append.mp hm with h1 | h2
          · exact hash_not_mem_peP t.facet h1
          · rcases List.mem_cons.mp h2 with he | h3
            · exact absurd he (by decide)
            · exact hPhash h3)]
        show (match split_first '?' (percent_encode PATH (str_bytes t.facet) ++
            '?' :: ['&'].intercalate (t.props.map encode_prop)) with
          | (rawPath, query) =>
            UrlParts.mk (url_resolve_path rawPath) (query.map (url_component_encode QUERY))
              ((none : Option Str).map (url_component_encode FRAGMENT))) = _
        rw [split_first_append _ (qmark_not_mem_peP t.facet)]
        show UrlParts.mk (url_resolve_path (percent_encode PATH (str_bytes t.facet)))
          ((some (['&'].intercalate (t.props.map encode_prop))).map
            (url_component_encode QUERY))
          ((none : Option Str).map (url_component_encode FRAGMENT)) = _
        rw [hresolve]
        simp only [Option.map_none', Option.map_some', hqid]
      have hparse : url_parse (Tag.encode t) =
          some ⟨'/' :: percent_encode PATH (str_bytes t.facet),
            some (['&'].intercalate (t.props.map encode_prop)), none⟩ := by
        rw [url_parse_no_scheme hstrip hremove hscheme hhead, hrel]
      have hteq : (⟨[], t.facet, t.props⟩ : Tag) = t := by rw [← hl0]
      rw [tag_decode_checks _ htrim hene hhead hparse]
      simp only [Option.getD_none, Option.getD_some, percent_decode_nil, utf8_decode_nil,
        is_valid_label_nil, Bool.not_true, Bool.false_eq_true, if_false, List.isEmpty_cons,
        List.drop_succ_cons, List.drop_zero, hfacRT, hfac, hsuf, hqisE, hsplitQ, hdq,
        if_true, hteq, hvalid]
    · -- properties and label
      have hlne : t.label ≠ [] := by
        intro he
        rw [he] at hle
        exact hle rfl
      have henc : Tag.encode t = (percent_encode PATH (str_bytes t.facet) ++
          '?' :: ['&'].intercalate (t.props.map encode_prop)) ++
          '#' :: percent_encode FRAGMENT (str_bytes t.label) := by
        unfold Tag.encode
        rw [if_neg hpe, if_pos (show (!t.label.isEmpty) = true by
          simp [List.isEmpty_iff, hlne])]
      have hene : Tag.encode t ≠ [] := by
        rw [henc]
        simp
      have hrel : url_parse_relative (Tag.encode t) =
          ⟨'/' :: percent_encode PATH (str_bytes t.facet),
            some (['&'].intercalate (t.props.map encode_prop)),
            some (percent_encode FRAGMENT (str_bytes t.label))⟩ := by
        rw [henc]
        unfold url_parse_relative
        rw [split_first_append _ (show '#' ∉ percent_encode PATH (str_bytes t.facet) ++
            '?' :: ['&'].intercalate (t.props.map encode_prop) by
          intro hm
          rcases List.mem_append.mp hm with h1 | h2
          · exact hash_not_mem_peP t.facet h1
          · rcases List.mem_cons.mp h2 with he | h3
            · exact absurd he (by decide)
            · exact hPhash h3)]
        show (match split_first '?' (percent_encode PATH (str_bytes t.facet) ++
            '?' :: ['&'].intercalate (t.props.map encode_prop)) with
          | (rawPath, query) =>
            UrlParts.mk (url_resolve_path rawPath) (query.map (url_component_encode QUERY))
              ((some (percent_encode FRAGMENT (str_bytes t.label))).map
                (url_component_encode FRAGMENT))) = _
        rw [split_first_append _ (qmark_not_mem_peP t.facet)]
        show UrlParts.mk (url_resolve_path (percent_encode PATH (str_bytes t.facet)))
          ((some (['&'].intercalate (t.props.map encode_prop))).map
            (url_component_encode QUERY))
          ((some (percent_encode FRAGMENT (str_bytes t.label))).map
            (url_component_encode FRAGMENT)) = _
        rw [hresolve]
        simp only [Option.map_some', hqid, hfragid]
      have hparse : url_parse (Tag.encode t) =
          some ⟨'/' :: percent_encode PATH (str_bytes t.facet),
            some (['&'].intercalate (t.props.map encode_prop)),
            some (percent_encode FRAGMENT (str_bytes t.label))⟩ := by
        rw [url_parse_no_scheme hstrip hremove hscheme hhead, hrel]
      rw [tag_decode_checks _ htrim hene hhead hparse]
      simp only [Option.getD_some, hlabRT, hlab, Bool.not_true, Bool.false_eq_true,
        if_false, List.isEmpty_cons, List.drop_succ_cons, List.drop_zero, hfacRT, hfac,
        hsuf, hqisE, hsplitQ, hdq, if_true, hvalid]

theorem C1_witness :
    Tag.decode_str (Tag.encode ⟨"Someone".data, "wishlist~20220625".data,
      [⟨"k".data, "v".data⟩]⟩) =
      DecodeResult.ok ⟨"Someone".data, "wishlist~20220625".data, [⟨"k".data, "v".data⟩]⟩ :=
  C1_amended ⟨"Someone".data, "wishlist~20220625".data, [⟨"k".data, "v".data⟩]⟩
    (by decide) (by decide) (by decide) (by decide) (by decide) (by decide)
    (by decide) (by decide) (by decide) (by decide) (by decide)

theorem decode_facet_query (q : Str) (hne : q ≠ [])
    (hgt : ∀ c ∈ q, 0x20 < c.toNat) (hend : ends_ws q = false) (hhq : '#' ∉ q) :
    Tag.decode_str ("facet?".data ++ q) =
      (match (if (url_component_encode QUERY q).isEmpty then some []
        else decode_query_props ((url_component_encode QUERY q).splitOn '&')) with
      | none => DecodeResult.parseError
      | some props =>
        if !(Tag.mk [] "facet".data props).is_valid then DecodeResult.invalidTag
        else DecodeResult.ok (Tag.mk [] "facet".data props)) := by
  have hshape : "facet?".data ++ q = "facet".data ++ '?' :: q := rfl
  have htrimE : rust_trim ("facet?".data ++ q) = "facet?".data ++ q := by
    have hendE : ends_ws ("facet?".data ++ q) = false := by
      rw [ends_ws_append_right hne]
      exact hend
    show trim_start (trim_end ("facet?".data ++ q)) = _
    rw [trim_end_eq_self hendE]
    show List.dropWhile rust_is_whitespace ('f' :: ("acet?".data ++ q)) = _
    rw [List.dropWhile_cons, if_neg (show ¬(rust_is_whitespace 'f' = true) by decide)]
    rfl
  have heneE : "facet?".data ++ q ≠ [] := by
    show 'f' :: ("acet?".data ++ q) ≠ []
    simp
  have hheadE : ("facet?".data ++ q).head? ≠ some '/' := by
    show some 'f' ≠ some '/'
    decide
  have hgtE : ∀ c ∈ "facet?".data ++ q, 0x20 < c.toNat := by
    intro c hc
    rcases List.mem_append.mp hc with h1 | h2
    · exact (by decide : ∀ c ∈ "facet?".data, 0x20 < c.toNat) c h1
    · exact hgt c h2
  have hstrip := url_strip_c0_space_id hgtE
  have hremove := url_remove_tab_newline_id hgtE
  have hscheme : scheme_split ("facet?".data ++ q) = none := by
    show scheme_split ('f' :: ("acet?".data ++ q)) = none
    rw [scheme_split, if_pos (show is_ascii_alpha 'f' = true by decide)]
    show scheme_split_aux ['f'] ("acet".data ++ '?' :: q) = none
    exact scheme_split_aux_stop "acet".data ['f'] ('?' :: q) (by decide)
      (fun z hz => by
        have : z = '?' := Option.some.inj hz.symm
        subst this
        exact ⟨by decide, by decide⟩)
  have hhashE : '#' ∉ "facet?".data ++ q := by
    intro hm
    rcases List.mem_append.mp hm with h1 | h2
    · exact absurd h1 (by decide)
    · exact hhq h2
  have hrel : url_parse_relative ("facet?".data ++ q) =
      ⟨"/facet".data, some (url_component_encode QUERY q), none⟩ := by
    unfold url_parse_relative
    rw [split_first_not_mem hhashE]
    show (match split_first '?' ("facet?".data ++ q) with
      | (rawPath, query) =>
        UrlParts.mk (url_resolve_path rawPath) (query.map (url_component_encode QUERY))
          ((none : Option Str).map (url_component_encode FRAGMENT))) = _
    rw [hshape, split_first_append _ (show '?' ∉ "facet".data by decide)]
    show UrlParts.mk (url_resolve_path "facet".data)
      ((some q).map (url_component_encode QUERY))
      ((none : Option Str).map (url_component_encode FRAGMENT)) = _
    rw [show url_resolve_path "facet".data = "/facet".data by decide]
    rfl
  have hparse : url_parse ("facet?".data ++ q) =
      some ⟨"/facet".data, some (url_component_encode QUERY q), none⟩ := by
    rw [url_parse_no_scheme hstrip hremove hscheme hheadE, hrel]
  rw [tag_decode_checks _ htrimE heneE hheadE hparse]
  simp only [Option.getD_none, Option.getD_some, percent_decode_nil, utf8_decode_nil,
    is_valid_label_nil, Bool.not_true, Bool.false_eq_true, if_false,
    show List.isEmpty "/facet".data = false from rfl,
    show utf8_decode (percent_decode (List.drop 1 "/facet".data)) = some "facet".data
      from by decide,
    show is_valid_facet "facet".data = true from by decide,
    show facet_has_invalid_date_like_suffix "facet".data = false from by decide]

theorem trim_end_eq_of_rust_trim {k : Str} (h : rust_trim k = k) : trim_end k = k := by
  have hsub : List.Sublist (trim_end k) k := by
    show List.Sublist (k.reverse.dropWhile rust_is_whitespace).reverse k
    have h2 := (List.dropWhile_sublist (l := k.reverse) rust_is_whitespace).reverse
    rwa [List.reverse_reverse] at h2
  have hlen : (trim_end k).length = k.length := by
    have h1 : (rust_trim k).length ≤ (trim_end k).length := by
      show (trim_start (trim_end k)).length ≤ _
      exact (List.dropWhile_sublist _).length_le
    have h2 := trim_end_length_le k
    rw [h] at h1
    omega
  exact hsub.eq_of_length hlen

/-- C7 (amended): a query segment with no `=` at all is accepted: for
any non-empty trimmed key without the special characters, the token
`facet?key` decodes to a property with the whole segment as name and an
empty value, while the same key followed by `=v=w` (two `=` signs in
one segment) is rejected as a parse error. -/
theorem C7_amended (k : Str) (hne : k ≠ [])
    (htrimk : rust_trim k = k) (hgt : ∀ c ∈ k, 0x20 < c.toNat)
    (hpct : '%' ∉ k) (hhashk : '#' ∉ k) (hampk : '&' ∉ k) (heqk : '=' ∉ k) :
    Tag.decode_str ("facet?".data ++ k) =
      DecodeResult.ok ⟨[], "facet".data, [⟨k, []⟩]⟩ ∧
    Tag.decode_str ("facet?".data ++ (k ++ "=v=w".data)) = DecodeResult.parseError := by
  have hendk : ends_ws k = false := by
    rw [← trim_end_eq_of_rust_trim htrimk]
    exact ends_ws_trim_end k
  constructor
  · rw [decode_facet_query k hne hgt hendk hhashk]
    unfold url_component_encode
    have hqne : percent_encode QUERY (str_bytes k) ≠ [] :=
      percent_encode_ne_nil (str_bytes_ne_nil hne)
    have hisE : List.isEmpty (percent_encode QUERY (str_bytes k)) = false := by
      simpa [List.isEmpty_iff] using hqne
    have hone : decode_one_prop (percent_encode QUERY (str_bytes k)) = some ⟨k, []⟩ := by
      unfold decode_one_prop
      rw [splitOn_not_mem (eq_not_mem_peQ heqk)]
      show decode_keyval (percent_encode QUERY (str_bytes k)) [] = some ⟨k, []⟩
      unfold decode_keyval
      rw [field_decode_encode QUERY k hpct]
      show (if !Prop'.is_valid_key k then none else
        match utf8_decode (percent_decode ([] : Str)) with
        | none => none
        | some val => some (Prop'.mk k val)) = some (Prop'.mk k [])
      rw [if_neg (show ¬((!Prop'.is_valid_key k) = true) by
        simp [Prop'.is_valid_key, htrimk])]
      rfl
    have hq : decode_query_props ((percent_encode QUERY (str_bytes k)).splitOn '&') =
        some [⟨k, []⟩] := by
      rw [splitOn_not_mem (amp_not_mem_peQ hampk)]
      show (match decode_one_prop (percent_encode QUERY (str_bytes k)) with
        | none => none
        | some p => (decode_query_props []).map (fun ps => p :: ps)) =
        some [Prop'.mk k []]
      rw [hone]
      rfl
    simp only [hisE, Bool.false_eq_true, if_false, hq,
      show (Tag.mk [] "facet".data [⟨k, []⟩]).is_valid = true from rfl, Bool.not_true]
  · have hq_ne : k ++ "=v=w".data ≠ [] := by
      intro h
      rcases List.append_eq_nil.mp h with ⟨_, h2⟩
      exact absurd h2 (by decide)
    have hgt2 : ∀ c ∈ k ++ "=v=w".data, 0x20 < c.toNat := by
      intro c hc
      rcases List.mem_append.mp hc with h1 | h2
      · exact hgt c h1
      · exact (by decide : ∀ c ∈ "=v=w".data, 0x20 < c.toNat) c h2
    have hend2 : ends_ws (k ++ "=v=w".data) = false := by
      rw [ends_ws_append_right (show "=v=w".data ≠ [] by decide)]
      decide
    have hhq2 : '#' ∉ k ++ "=v=w".data := by
      intro hm
      rcases List.mem_append.mp hm with h1 | h2
      · exact hhashk h1
      · exact absurd h2 (by decide)
    rw [decode_facet_query _ hq_ne hgt2 hend2 hhq2]
    unfold url_component_encode
    have hueq : percent_encode QUERY (str_bytes (k ++ "=v=w".data)) =
        percent_encode QUERY (str_bytes k) ++ "=v=w".data := by
      rw [str_bytes_append, percent_encode_append]
      congr 1
    have happne : percent_encode QUERY (str_bytes k) ++ "=v=w".data ≠ [] := by
      intro h
      rcases List.append_eq_nil.mp h with ⟨_, h2⟩
      exact absurd h2 (by decide)
    have hisE2 : List.isEmpty (percent_encode QUERY (str_bytes (k ++ "=v=w".data)))
        = false := by
      rw [hueq]
      simpa [List.isEmpty_iff] using happne
    have hampq : '&' ∉ percent_encode QUERY (str_bytes (k ++ "=v=w".data)) := by
      rw [hueq]
      intro hm
      rcases List.mem_append.mp hm with h1 | h2
      · exact amp_not_mem_peQ hampk h1
      · exact absurd h2 (by decide)
    have hint : [('=' : Char)].intercalate [percent_encode QUERY (str_bytes k),
        ['v'], ['w']] = percent_encode QUERY (str_bytes (k ++ "=v=w".data)) := by
      rw [hueq, intercalate_cons₂, intercalate_cons₂, intercalate_singleton,
        show ("=v=w".data : Str) = ['='] ++ (['v'] ++ ['='] ++ ['w']) from rfl]
      simp [List.append_assoc]
    have hsplit3 : (percent_encode QUERY (str_bytes (k ++ "=v=w".data))).splitOn '=' =
        [percent_encode QUERY (str_bytes k), ['v'], ['w']] := by
      rw [← hint]
      apply List.splitOn_intercalate
      · intro l hl
        simp only [List.mem_cons, List.not_mem_nil, or_false] at hl
        rcases hl with rfl | rfl | rfl
        · exact eq_not_mem_peQ heqk
        · decide
        · decide
      · simp
    have hone2 : decode_one_prop (percent_encode QUERY (str_bytes (k ++ "=v=w".data)))
        = none := by
      unfold decode_one_prop
      rw [hsplit3]
    have hq2 : decode_query_props
        ((percent_encode QUERY (str_bytes (k ++ "=v=w".data))).splitOn '&') = none := by
      rw [splitOn_not_mem hampq]
      show (match decode_one_prop (percent_encode QUERY (str_bytes (k ++ "=v=w".data))) with
        | none => none
        | some p => (decode_query_props []).map (fun ps => p :: ps)) = none
      rw [hone2]
    simp only [hisE2, Bool.false_eq_true, if_false, hq2]

theorem C7_witness :
    Tag.decode_str ("facet?".data ++ "key".data) =
      DecodeResult.ok ⟨[], "facet".data, [⟨"key".data, []⟩]⟩ ∧
    Tag.decode_str ("facet?".data ++ ("key".data ++ "=v=w".data)) =
      DecodeResult.parseError :=
  C7_amended "key".data (by decide) (by decide) (by decide) (by decide) (by decide)
    (by decide) (by decide)

end Gigtag
